import Mathlib

/-!
A shallow embedding of `filesystem-go`.

The Go package `filesystem` (files `filesystem/filesystem.go` and
`filesystem/operation.go`) keeps one aggregate `FileSystem` in memory, mutates it
with `CreateFile` / `DeleteFile`, and stores it in one flat binary file.

Modelling conventions.

* A Go `[]byte` and a Go `string` are both byte sequences: `List UInt8`.
* A Go `int` is a Lean `Int`; conversions `uint32(x)` are written with an explicit
  `% 2 ^ 32`.
* A function taking `fs *FileSystem` becomes a function returning the new aggregate
  (together with its Go return value when it has one).
* `time.Now()` is an input: every call of the clock is one `Time` argument.
* A run-time panic (slice bounds, index out of range) is the result `none`.
* The backing file is the list of its bytes; `file.Read` into a fresh buffer is
  `readBytes`.
-/

namespace Filesystem

/-- A byte of a payload, of a string or of the image. -/
abbrev Byte := UInt8

/-- A Go `string`: an immutable sequence of bytes. -/
abbrev GoString := List Byte

/-- The bytes of an ASCII string literal of the source. -/
def str (s : String) : GoString :=
  s.toList.map fun c => UInt8.ofNat c.toNat

/-- Constant `BlockSize` of the source. -/
def BlockSize : Nat := 4096

/-- Constant `DEFAULT_FILE_PERMISSION` of the source. -/
def DEFAULT_FILE_PERMISSION : GoString := str "rw-r--r--"

/-- A `time.Time`, seen through what this program observes of it: `sec` is the value
of `t.Unix()` (seconds since the Unix epoch, a Go `int64`), `nsec` the part below one
second. -/
structure Time where
  sec : Int
  nsec : Nat
deriving DecidableEq

/-- Go's `t.Unix()`. -/
def Time.Unix (t : Time) : Int := t.sec

/-- Go's `time.Unix(sec, 0)`. -/
def Time.ofUnix (sec : Int) : Time := { sec := sec, nsec := 0 }

/-- The zero `time.Time` (January 1, year 1, 00:00:00 UTC). -/
def Time.zero : Time := { sec := -62135596800, nsec := 0 }

/-- Go struct `SuperBlock`. -/
structure SuperBlock where
  TotalBlocks : Int
  BlockSize : Int
deriving DecidableEq

/-- Go struct `DirectoryEntry`. -/
structure DirectoryEntry where
  Name : GoString
  Inode : Int
  Permission : GoString
deriving DecidableEq

/-- Go struct `Inode`. -/
structure Inode where
  Data : List Byte
  Used : Bool
  Permission : GoString
  CreatedAt : Time
  UpdatedAt : Time
deriving DecidableEq

/-- The zero value `Inode{}`, which `make([]Inode, n)` fills a slice with. -/
def Inode.zero : Inode :=
  { Data := [], Used := false, Permission := [], CreatedAt := Time.zero, UpdatedAt := Time.zero }

/-- Go struct `FileSystem`, the aggregate. -/
structure FileSystem where
  SuperBlock : SuperBlock
  FreeList : List Bool
  Directory : List DirectoryEntry
  Inodes : List Inode
  CurrentDir : GoString
deriving DecidableEq

/-! ## Binary codec: encoding -/

/-- Go conversion `uint32(x)` of an `int`. -/
def uint32 (x : Int) : Nat := (x % 4294967296).toNat

/-- The four bytes `binary.Write(buf, binary.LittleEndian, v)` appends for a `uint32`. -/
def putU32 (v : Nat) : List Byte :=
  [UInt8.ofNat v, UInt8.ofNat (v / 256), UInt8.ofNat (v / 65536), UInt8.ofNat (v / 16777216)]

/-- The eight bytes `binary.Write(buf, binary.LittleEndian, v)` appends for an `int64`:
the two's complement of `v`, low byte first. -/
def putI64 (v : Int) : List Byte :=
  putU32 (v % 18446744073709551616).toNat ++
    putU32 ((v % 18446744073709551616).toNat / 4294967296)

/-- The byte `binary.Write(buf, binary.LittleEndian, b)` appends for a `bool`. -/
def putBool (b : Bool) : List Byte := [if b then 1 else 0]

/-- Go `encodeSuperBlock`. -/
def encodeSuperBlock (sb : SuperBlock) : List Byte :=
  putU32 (uint32 sb.TotalBlocks) ++ putU32 (uint32 sb.BlockSize)

/-- Go `encodeFreeList`: the loop over `fl`. -/
def encodeFreeList : List Bool → List Byte
  | [] => []
  | block :: fl => putBool block ++ encodeFreeList fl

/-- The body of the loop of `encodeDirectory`, for one entry. -/
def encodeDirectoryEntry (entry : DirectoryEntry) : List Byte :=
  putU32 (uint32 entry.Name.length) ++ entry.Name ++ putU32 (uint32 entry.Inode) ++
    entry.Permission

/-- The loop of `encodeDirectory`. -/
def encodeDirectoryEntries : List DirectoryEntry → List Byte
  | [] => []
  | entry :: directory => encodeDirectoryEntry entry ++ encodeDirectoryEntries directory

/-- Go `encodeDirectory`. -/
def encodeDirectory (directory : List DirectoryEntry) : List Byte :=
  putU32 (uint32 directory.length) ++ encodeDirectoryEntries directory

/-- The body of the loop of `encodeInodes`, for one inode. -/
def encodeInode (inode : Inode) : List Byte :=
  putU32 (uint32 inode.Data.length) ++ inode.Data ++ putBool inode.Used ++ inode.Permission ++
    putI64 inode.CreatedAt.Unix ++ putI64 inode.UpdatedAt.Unix

/-- The loop of `encodeInodes`. -/
def encodeInodeList : List Inode → List Byte
  | [] => []
  | inode :: inodes => encodeInode inode ++ encodeInodeList inodes

/-- Go `encodeInodes`. -/
def encodeInodes (inodes : List Inode) : List Byte :=
  putU32 (uint32 inodes.length) ++ encodeInodeList inodes

/-- Go `encodeCurrDirecrory`. -/
def encodeCurrDirecrory (currDir : GoString) : List Byte :=
  putU32 (uint32 currDir.length) ++ currDir

/-- Go `SaveFileSystem`: the bytes written, in order, to the truncated backing file. -/
def SaveFileSystem (fs : FileSystem) : List Byte :=
  encodeSuperBlock fs.SuperBlock ++ encodeFreeList fs.FreeList ++ encodeDirectory fs.Directory ++
    encodeInodes fs.Inodes ++ encodeCurrDirecrory fs.CurrentDir

/-! ## Binary codec: decoding -/

/-- The pair `b := make([]byte, n); file.Read(b)`: the buffer starts as `n` zero bytes and
receives the next bytes of the file, as many as there are up to `n`; the rest of the file
is what the following reads see. The result of `Read` is ignored, as in the source. -/
def readBytes (n : Nat) (file : List Byte) : List Byte × List Byte :=
  (file.take n ++ List.replicate (n - file.length) 0, file.drop n)

/-- Go `binary.LittleEndian.Uint32(b)`. -/
def getU32 (b : List Byte) : Nat :=
  (b.getD 0 0).toNat + 256 * (b.getD 1 0).toNat + 65536 * (b.getD 2 0).toNat +
    16777216 * (b.getD 3 0).toNat

/-- Go `binary.LittleEndian.Uint64(b)`. -/
def getU64 (b : List Byte) : Nat :=
  getU32 (b.take 4) + 4294967296 * getU32 (b.drop 4)

/-- Go conversion `int64(x)` of a `uint64`. -/
def int64 (x : Nat) : Int :=
  if x % 18446744073709551616 < 9223372036854775808 then ((x % 18446744073709551616 : Nat) : Int)
  else ((x % 18446744073709551616 : Nat) : Int) - 18446744073709551616

/-- The loop of `LoadFileSystem` that fills `fs.FreeList` from the bytes `fl`. -/
def decodeFreeList (fl : List Byte) : List Bool :=
  fl.map fun b => if b != 0 then true else false

/-- The loop of `LoadFileSystem` over the `dirSize` directory entries. -/
def decodeDirectoryEntries : Nat → List Byte → List DirectoryEntry × List Byte
  | 0, file => ([], file)
  | dirSize + 1, file =>
    let nameLengthBytes := readBytes 4 file
    let nameLength := getU32 nameLengthBytes.1
    let nameBytes := readBytes nameLength nameLengthBytes.2
    let inodesBytes := readBytes 4 nameBytes.2
    let permissionBytes := readBytes 9 inodesBytes.2
    let entry : DirectoryEntry :=
      { Name := nameBytes.1, Inode := (getU32 inodesBytes.1 : Nat), Permission := permissionBytes.1 }
    let rest := decodeDirectoryEntries dirSize permissionBytes.2
    (entry :: rest.1, rest.2)

/-- The loop of `LoadFileSystem` over the `inodeLen` inodes. -/
def decodeInodeList : Nat → List Byte → List Inode × List Byte
  | 0, file => ([], file)
  | inodeLen + 1, file =>
    let dataLengthBytes := readBytes 4 file
    let dataLength := getU32 dataLengthBytes.1
    let dataBytes := readBytes dataLength dataLengthBytes.2
    let usedBytes := readBytes 1 dataBytes.2
    let permissionBytes := readBytes 9 usedBytes.2
    let createdAtBytes := readBytes 8 permissionBytes.2
    let updatedAtBytes := readBytes 8 createdAtBytes.2
    let inode : Inode :=
      { Data := dataBytes.1
        Used := if usedBytes.1.getD 0 0 != 0 then true else false
        Permission := permissionBytes.1
        CreatedAt := Time.ofUnix (int64 (getU64 createdAtBytes.1))
        UpdatedAt := Time.ofUnix (int64 (getU64 updatedAtBytes.1)) }
    let rest := decodeInodeList inodeLen updatedAtBytes.2
    (inode :: rest.1, rest.2)

/-- Go `LoadFileSystem`, on a backing file that could be opened and holds `file`. -/
def LoadFileSystem (file : List Byte) : FileSystem :=
  let sb := readBytes 8 file
  let TotalBlocks := getU32 (sb.1.take 4)
  let BlockSize := getU32 (sb.1.drop 4)
  let fl := readBytes TotalBlocks sb.2
  let dirSizeBytes := readBytes 4 fl.2
  let dirSize := getU32 dirSizeBytes.1
  let directory := decodeDirectoryEntries dirSize dirSizeBytes.2
  let inodeLenBytes := readBytes 4 directory.2
  let inodeLen := getU32 inodeLenBytes.1
  let inodes := decodeInodeList inodeLen inodeLenBytes.2
  let currDirLenBytes := readBytes 4 inodes.2
  let currDirStringLen := getU32 currDirLenBytes.1
  let currDirBytes := readBytes currDirStringLen currDirLenBytes.2
  { SuperBlock := { TotalBlocks := (TotalBlocks : Nat), BlockSize := (BlockSize : Nat) }
    FreeList := decodeFreeList fl.1
    Directory := directory.1
    Inodes := inodes.1
    CurrentDir := currDirBytes.1 }

/-! ## Allocation and file operations -/

/-- The Go idiom `index := -1; for i, x := range xs { if p x { index = i; break } }`,
started at position `i`: the position of the first element satisfying `p`, or `-1`. -/
def firstIndex {α : Type} (p : α → Bool) : List α → Nat → Int
  | [], _ => -1
  | x :: xs, i => if p x then (i : Int) else firstIndex p xs (i + 1)

/-- Go `findFreeInode`: the returned index and the aggregate it leaves. -/
def findFreeInode (fs : FileSystem) : Int × FileSystem :=
  let index := firstIndex (fun fn => fn) fs.FreeList 0
  if index = -1 then (index, fs)
  else
    let InodesLen : Int := fs.Inodes.length
    let Inodes :=
      if InodesLen - 1 < index then
        fs.Inodes ++ List.replicate (index + 1 - InodesLen).toNat Inode.zero
      else fs.Inodes
    (index, { fs with Inodes := Inodes, FreeList := fs.FreeList.set index.toNat false })

/-- Go `allocateInode`; `now1` and `now2` are the two readings of `time.Now()`. -/
def allocateInode (fs : FileSystem) (data : List Byte) (permissions : GoString)
    (now1 now2 : Time) : Int × FileSystem :=
  let inode : Inode :=
    { Data := data, Used := true, Permission := permissions, CreatedAt := now1, UpdatedAt := now2 }
  let r := findFreeInode fs
  if r.1 ≠ -1 then (r.1, { r.2 with Inodes := r.2.Inodes.set r.1.toNat inode })
  else (r.1, r.2)

/-- The loop `for i := 0; i < n; i++ { fl[i] = true }` of `CreateFileSystem`. -/
def initFreeList (n : Nat) (fl : List Bool) : List Bool :=
  (List.range n).foldl (fun fl i => fl.set i true) fl

/-- Go `CreateFileSystem`: the aggregate it builds and hands to `SaveFileSystem`;
`now1` and `now2` are the two readings of `time.Now()` in `allocateInode`. -/
def CreateFileSystem (now1 now2 : Time) : FileSystem :=
  let fs : FileSystem :=
    { SuperBlock := { TotalBlocks := 1000, BlockSize := BlockSize }
      FreeList := List.replicate 1000 false
      Directory := []
      Inodes := []
      CurrentDir := str "/" }
  let fs := { fs with FreeList := initFreeList fs.SuperBlock.TotalBlocks.toNat fs.FreeList }
  let root := allocateInode fs (List.replicate BlockSize 0) (str "rwxr-xr-x") now1 now2
  { root.2 with
    Directory := root.2.Directory ++
      [{ Name := str "/", Inode := root.1, Permission := str "rwxr-xr-x" }] }

/-- The image `CreateFileSystem` writes to the backing file. -/
def CreateFileSystemImage (now1 now2 : Time) : List Byte :=
  SaveFileSystem (CreateFileSystem now1 now2)

/-- Go `CreateFile`; `now1` and `now2` are the two readings of `time.Now()`. -/
def CreateFile (fs : FileSystem) (name : GoString) (data : List Byte) (now1 now2 : Time) :
    FileSystem :=
  if name = [] then fs
  else if fs.Directory.any (fun entry => entry.Name == name) then fs
  else if data.length > 4096 then fs
  else
    let r := findFreeInode fs
    if r.1 = -1 then r.2
    else
      { r.2 with
        Inodes := r.2.Inodes.set r.1.toNat
          { Data := data, Used := true, Permission := DEFAULT_FILE_PERMISSION,
            CreatedAt := now1, UpdatedAt := now2 }
        Directory := r.2.Directory ++
          [{ Name := name, Inode := r.1, Permission := DEFAULT_FILE_PERMISSION }] }

/-- Go `DeleteFile`. The slice expressions `fs.Inodes[:j]` and `fs.Inodes[j+1:]` panic
unless `0 ≤ j` and `j + 1 ≤ len(fs.Inodes)`, and `fs.FreeList[j] = true` panics unless
`j < len(fs.FreeList)`; a panic is `none`. -/
def DeleteFile (fs : FileSystem) (name : GoString) : Option FileSystem :=
  if name = [] then some fs
  else
    let index := firstIndex (fun entry : DirectoryEntry => entry.Name == name) fs.Directory 0
    if index = -1 then some fs
    else
      match fs.Directory[index.toNat]? with
      | none => none
      | some entry =>
        let inodeIndexToBeRemoved := entry.Inode
        let Directory := fs.Directory.take index.toNat ++ fs.Directory.drop (index.toNat + 1)
        if 0 ≤ inodeIndexToBeRemoved ∧ inodeIndexToBeRemoved + 1 ≤ (fs.Inodes.length : Int) then
          let Inodes := fs.Inodes.take inodeIndexToBeRemoved.toNat ++
            fs.Inodes.drop (inodeIndexToBeRemoved.toNat + 1)
          if inodeIndexToBeRemoved < (fs.FreeList.length : Int) then
            some { fs with
              Directory := Directory
              Inodes := Inodes
              FreeList := fs.FreeList.set inodeIndexToBeRemoved.toNat true }
          else none
        else none

/-! ## Auxiliary definitions of the statements -/

/-- The aggregate `findFreeInode` leaves when it claims slot `i`. -/
def claimed (fs : FileSystem) (i : Nat) : FileSystem :=
  { fs with
    Inodes := fs.Inodes ++ List.replicate (i + 1 - fs.Inodes.length) Inode.zero
    FreeList := fs.FreeList.set i false }

/-- A timestamp at whole-second resolution whose Unix seconds are a Go `int64`. -/
def ValidTime (t : Time) : Prop :=
  t.nsec = 0 ∧ -9223372036854775808 ≤ t.sec ∧ t.sec < 9223372036854775808

/-- A directory entry the image can hold: name shorter than `2^32` bytes, inode index in
`0 .. 2^32 - 1`, permission of exactly 9 bytes. -/
def ValidEntry (e : DirectoryEntry) : Prop :=
  e.Name.length < 4294967296 ∧ 0 ≤ e.Inode ∧ e.Inode < 4294967296 ∧ e.Permission.length = 9

/-- An inode the image can hold: payload shorter than `2^32` bytes, permission of exactly 9
bytes, both timestamps valid. -/
def ValidInode (i : Inode) : Prop :=
  i.Data.length < 4294967296 ∧ i.Permission.length = 9 ∧
    ValidTime i.CreatedAt ∧ ValidTime i.UpdatedAt

/-- A valid aggregate: `totalBlocks` and `blockSize` in `0 .. 2^32 - 1`, a FreeList of
length `totalBlocks`, fewer than `2^32` directory entries and inodes, every entry and inode
valid, and a `currentDir` shorter than `2^32` bytes. -/
def ValidAggregate (fs : FileSystem) : Prop :=
  0 ≤ fs.SuperBlock.TotalBlocks ∧ fs.SuperBlock.TotalBlocks < 4294967296 ∧
    0 ≤ fs.SuperBlock.BlockSize ∧ fs.SuperBlock.BlockSize < 4294967296 ∧
    (fs.FreeList.length : Int) = fs.SuperBlock.TotalBlocks ∧
    fs.Directory.length < 4294967296 ∧ (∀ e ∈ fs.Directory, ValidEntry e) ∧
    fs.Inodes.length < 4294967296 ∧ (∀ i ∈ fs.Inodes, ValidInode i) ∧
    fs.CurrentDir.length < 4294967296

instance (t : Time) : Decidable (ValidTime t) := by
  unfold ValidTime
  infer_instance

instance (e : DirectoryEntry) : Decidable (ValidEntry e) := by
  unfold ValidEntry
  infer_instance

instance (i : Inode) : Decidable (ValidInode i) := by
  unfold ValidInode
  infer_instance

instance (fs : FileSystem) : Decidable (ValidAggregate fs) := by
  unfold ValidAggregate
  infer_instance

/-- A small aggregate with one free block: the root entry and its inode. -/
def sampleFs : FileSystem :=
  { SuperBlock := { TotalBlocks := 2, BlockSize := 4096 }
    FreeList := [false, true]
    Directory := [{ Name := str "/", Inode := 0, Permission := str "rwxr-xr-x" }]
    Inodes := [{ Data := [0, 1, 255], Used := true, Permission := str "rwxr-xr-x",
                 CreatedAt := { sec := 1700000000, nsec := 0 },
                 UpdatedAt := { sec := 1700000001, nsec := 0 } }]
    CurrentDir := str "/" }

/-- A small aggregate without a free block: the root and one file `a`. -/
def fullFs : FileSystem :=
  { SuperBlock := { TotalBlocks := 2, BlockSize := 4096 }
    FreeList := [false, false]
    Directory := [{ Name := str "/", Inode := 0, Permission := str "rwxr-xr-x" },
                  { Name := str "a", Inode := 1, Permission := str "rw-r--r--" }]
    Inodes := [{ Data := [0, 1, 255], Used := true, Permission := str "rwxr-xr-x",
                 CreatedAt := { sec := 1700000000, nsec := 0 },
                 UpdatedAt := { sec := 1700000001, nsec := 0 } },
               { Data := str "hi", Used := true, Permission := str "rw-r--r--",
                 CreatedAt := { sec := 1700000002, nsec := 0 },
                 UpdatedAt := { sec := 1700000002, nsec := 0 } }]
    CurrentDir := str "/" }

/-- A clock reading used in the examples. -/
def sampleNow : Time := { sec := 1700000003, nsec := 0 }

/-! ## Sequences of calls -/

/-- One allocation: a call of `findFreeInode(fs)` or of `fs.allocateInode(data, permissions)`. -/
inductive AllocCall where
  | find
  | allocate (data : List Byte) (permissions : GoString) (now1 now2 : Time)

/-- The index an allocation returns and the aggregate it leaves. -/
def AllocCall.apply (c : AllocCall) (fs : FileSystem) : Int × FileSystem :=
  match c with
  | AllocCall.find => findFreeInode fs
  | AllocCall.allocate data permissions now1 now2 => allocateInode fs data permissions now1 now2

/-- Allocations performed one after another, with nothing in between: the returned indices
in call order, and the final aggregate. -/
def allocAll : FileSystem → List AllocCall → List Int × FileSystem
  | fs, [] => ([], fs)
  | fs, c :: cs =>
    let r := c.apply fs
    let rest := allocAll r.2 cs
    (r.1 :: rest.1, rest.2)

/-- One file operation of the driver on the aggregate. -/
inductive Op where
  | create (name : GoString) (data : List Byte) (now1 now2 : Time)
  | delete (name : GoString)
deriving DecidableEq

/-- A finite sequence of `CreateFile` and `DeleteFile` calls; `none` when a call panics. -/
def run : FileSystem → List Op → Option FileSystem
  | fs, [] => some fs
  | fs, Op.create name data now1 now2 :: ops => run (CreateFile fs name data now1 now2) ops
  | fs, Op.delete name :: ops =>
    match DeleteFile fs name with
    | none => none
    | some fs' => run fs' ops

/-- The states reachable from the aggregate `CreateFileSystem` builds through a finite
sequence of `CreateFile` and `DeleteFile` calls that complete. -/
def Reachable (fs : FileSystem) : Prop :=
  ∃ (now1 now2 : Time) (ops : List Op), run (CreateFileSystem now1 now2) ops = some fs

/-- The run of `run`, keeping next to the aggregate a log of its Directory: each entry paired
with the number of the call that appended it. Call number `k` is the call being performed;
a `CreateFile` stamps with `k` what it appends to the Directory, a `DeleteFile` that removes
an entry removes the same position of the log. -/
def stampedRun : FileSystem → List (DirectoryEntry × Nat) → Nat → List Op →
    Option (FileSystem × List (DirectoryEntry × Nat))
  | fs, log, _, [] => some (fs, log)
  | fs, log, k, Op.create name data now1 now2 :: ops =>
    let fs1 := CreateFile fs name data now1 now2
    stampedRun fs1
      (log ++ (fs1.Directory.drop fs.Directory.length).map (fun e => (e, k))) (k + 1) ops
  | fs, log, k, Op.delete name :: ops =>
    match DeleteFile fs name with
    | none => none
    | some fs1 =>
      let index := firstIndex (fun entry : DirectoryEntry => entry.Name == name) fs.Directory 0
      let log1 := if fs1.Directory.length < fs.Directory.length then log.eraseIdx index.toNat
        else log
      stampedRun fs1 log1 (k + 1) ops

/-- The log of the fresh aggregate: what `CreateFileSystem` appended, as call number 0. -/
def freshLog (now1 now2 : Time) : List (DirectoryEntry × Nat) :=
  (CreateFileSystem now1 now2).Directory.map (fun e => (e, 0))

/-- Entry `e` was appended by call number `k` of the run of `CreateFileSystem` followed by
`ops`: number 0 is `CreateFileSystem` itself; number `k + 1` is the call `ops[k]`, which has
to be a `CreateFile` that, in the state the calls before it lead to, appends exactly `e`. -/
def AppendedBy (now1 now2 : Time) (ops : List Op) (e : DirectoryEntry) : Nat → Prop
  | 0 => e ∈ (CreateFileSystem now1 now2).Directory
  | k + 1 =>
    ∃ (fs0 : FileSystem) (name : GoString) (data : List Byte) (n1 n2 : Time),
      run (CreateFileSystem now1 now2) (ops.take k) = some fs0 ∧
      ops[k]? = some (Op.create name data n1 n2) ∧
      (CreateFile fs0 name data n1 n2).Directory = fs0.Directory ++ [e]

/-- The aggregate of the end-to-end scenario after `DeleteFile("t1.txt")`: fresh aggregate,
`CreateFile("t1.txt", "hi")`, `CreateFile("t2.txt", "yo")`, `DeleteFile("t1.txt")`. -/
def afterDelete (n1 n2 n5 n6 : Time) : FileSystem :=
  { SuperBlock := { TotalBlocks := 1000, BlockSize := 4096 }
    FreeList := false :: true :: false :: List.replicate 997 true
    Directory :=
      [{ Name := str "/", Inode := 0, Permission := str "rwxr-xr-x" },
       { Name := str "t2.txt", Inode := 2, Permission := str "rw-r--r--" }]
    Inodes :=
      [{ Data := List.replicate 4096 0, Used := true, Permission := str "rwxr-xr-x",
         CreatedAt := n1, UpdatedAt := n2 },
       { Data := str "yo", Used := true, Permission := str "rw-r--r--",
         CreatedAt := n5, UpdatedAt := n6 }]
    CurrentDir := str "/" }

/-- The aggregate `afterDelete` after two more calls, `CreateFile("t3.txt", "a")` and
`CreateFile("t4.txt", "b")`. -/
def afterRecreate (n1 n2 n7 n8 n9 n10 : Time) : FileSystem :=
  { SuperBlock := { TotalBlocks := 1000, BlockSize := 4096 }
    FreeList := false :: false :: false :: false :: List.replicate 996 true
    Directory :=
      [{ Name := str "/", Inode := 0, Permission := str "rwxr-xr-x" },
       { Name := str "t2.txt", Inode := 2, Permission := str "rw-r--r--" },
       { Name := str "t3.txt", Inode := 1, Permission := str "rw-r--r--" },
       { Name := str "t4.txt", Inode := 3, Permission := str "rw-r--r--" }]
    Inodes :=
      [{ Data := List.replicate 4096 0, Used := true, Permission := str "rwxr-xr-x",
         CreatedAt := n1, UpdatedAt := n2 },
       { Data := str "a", Used := true, Permission := str "rw-r--r--",
         CreatedAt := n7, UpdatedAt := n8 },
       Inode.zero,
       { Data := str "b", Used := true, Permission := str "rw-r--r--",
         CreatedAt := n9, UpdatedAt := n10 }]
    CurrentDir := str "/" }

/-! ## The byte layout, in the words of the format description -/

/-- The `k` low-order bytes of `n`, least significant byte first (little-endian). -/
def littleEndian : Nat → Nat → List Byte
  | 0, _ => []
  | k + 1, n => UInt8.ofNat n :: littleEndian k (n / 256)

/-- The unsigned 64-bit number whose bits are the two's complement of the `i64` value `v`. -/
def twosComplement64 (v : Int) : Nat :=
  if 0 ≤ v then v.toNat else (v + 18446744073709551616).toNat

/-- One byte per boolean: `0x01` for true, `0x00` for false. -/
def boolByte (b : Bool) : Byte := if b then 0x01 else 0x00

/-- Per directory entry: `u32 nameLen`, the name bytes, `u32 inodeIndex`, the permission
bytes. -/
def layoutEntry (e : DirectoryEntry) : List Byte :=
  littleEndian 4 e.Name.length ++ e.Name ++ littleEndian 4 e.Inode.toNat ++ e.Permission

/-- Per inode: `u32 dataLen`, the payload bytes, the used flag, the permission bytes, `i64`
createdAt and `i64` updatedAt in Unix seconds. -/
def layoutInode (i : Inode) : List Byte :=
  littleEndian 4 i.Data.length ++ i.Data ++ [boolByte i.Used] ++ i.Permission ++
    littleEndian 8 (twosComplement64 i.CreatedAt.Unix) ++
    littleEndian 8 (twosComplement64 i.UpdatedAt.Unix)

/-- The image, section after section, without padding. -/
def layout (fs : FileSystem) : List Byte :=
  littleEndian 4 fs.SuperBlock.TotalBlocks.toNat ++ littleEndian 4 fs.SuperBlock.BlockSize.toNat ++
    fs.FreeList.map boolByte ++
    littleEndian 4 fs.Directory.length ++ (fs.Directory.map layoutEntry).flatten ++
    littleEndian 4 fs.Inodes.length ++ (fs.Inodes.map layoutInode).flatten ++
    littleEndian 4 fs.CurrentDir.length ++ fs.CurrentDir

/-- The length of the image: `8 + totalBlocks + 4 + Σ (17 + nameLen) + 4 + Σ (30 + dataLen) +
4 + len(currentDir)`. -/
def layoutLength (fs : FileSystem) : Nat :=
  8 + fs.SuperBlock.TotalBlocks.toNat + 4 +
    (fs.Directory.map fun e => 17 + e.Name.length).sum + 4 +
    (fs.Inodes.map fun i => 30 + i.Data.length).sum + 4 + fs.CurrentDir.length

/-- A Go `int64`. -/
def IsInt64 (v : Int) : Prop := -9223372036854775808 ≤ v ∧ v < 9223372036854775808

/-- The data model of the image: a FreeList of length `totalBlocks`, every permission string
of exactly 9 bytes, every count and length below `2^32`, every number stored as `u32` in
`0 .. 2^32 - 1`, every timestamp with `int64` Unix seconds. -/
def DataModel (fs : FileSystem) : Prop :=
  (fs.FreeList.length : Int) = fs.SuperBlock.TotalBlocks ∧ fs.FreeList.length < 4294967296 ∧
    0 ≤ fs.SuperBlock.BlockSize ∧ fs.SuperBlock.BlockSize < 4294967296 ∧
    fs.Directory.length < 4294967296 ∧ (∀ e ∈ fs.Directory, ValidEntry e) ∧
    fs.Inodes.length < 4294967296 ∧
    (∀ i ∈ fs.Inodes, i.Data.length < 4294967296 ∧ i.Permission.length = 9 ∧
      IsInt64 i.CreatedAt.Unix ∧ IsInt64 i.UpdatedAt.Unix) ∧
    fs.CurrentDir.length < 4294967296

instance (v : Int) : Decidable (IsInt64 v) := by
  unfold IsInt64
  infer_instance

instance (fs : FileSystem) : Decidable (DataModel fs) := by
  unfold DataModel
  infer_instance

/-- A small aggregate with two free blocks. -/
def roomyFs : FileSystem :=
  { sampleFs with
    SuperBlock := { TotalBlocks := 3, BlockSize := 4096 }
    FreeList := [false, true, true] }

/-! ## Lemmas on the scan idiom -/

theorem firstIndex_eq_neg_one {α : Type} (p : α → Bool) (xs : List α) (i : Nat) :
    firstIndex p xs i = -1 ↔ ∀ x ∈ xs, p x = false := by
  induction xs generalizing i with
  | nil => simp [firstIndex]
  | cons x xs ih =>
    simp only [firstIndex]
    by_cases hx : p x = true
    · simp only [hx, if_true, List.mem_cons, forall_eq_or_imp]
      constructor
      · intro h; omega
      · intro h; simp at h
    · have hx' : p x = false := by simpa using hx
      simp only [hx', Bool.false_eq_true, if_false, List.mem_cons, forall_eq_or_imp, true_and]
      exact ih (i + 1)

theorem firstIndex_of_lowest {α : Type} (p : α → Bool) (xs : List α) (i k : Nat) (x : α)
    (hk : xs[k]? = some x) (hx : p x = true)
    (hlow : ∀ m, m < k → ∀ y, xs[m]? = some y → p y = false) :
    firstIndex p xs i = ((i + k : Nat) : Int) := by
  induction xs generalizing i k with
  | nil => simp at hk
  | cons a xs ih =>
    cases k with
    | zero =>
      simp only [List.getElem?_cons_zero, Option.some.injEq] at hk
      simp [firstIndex, hk, hx]
    | succ k =>
      have ha : p a = false := hlow 0 (Nat.succ_pos k) a (by simp)
      simp only [List.getElem?_cons_succ] at hk
      have hlow' : ∀ m, m < k → ∀ y, xs[m]? = some y → p y = false :=
        fun m hm y hy => hlow (m + 1) (by omega) y (by simpa using hy)
      have := ih (i + 1) k hk hlow'
      simp only [firstIndex, ha, Bool.false_eq_true, if_false, this]
      congr 1; omega

theorem exists_lowest {α : Type} (p : α → Bool) (xs : List α) (h : ∃ x ∈ xs, p x = true) :
    ∃ (k : Nat) (x : α), xs[k]? = some x ∧ p x = true ∧
      ∀ m, m < k → ∀ y, xs[m]? = some y → p y = false := by
  induction xs with
  | nil => simp at h
  | cons a xs ih =>
    by_cases ha : p a = true
    · exact ⟨0, a, by simp, ha, fun m hm => by omega⟩
    · have h' : ∃ x ∈ xs, p x = true := by
        obtain ⟨x, hx, hpx⟩ := h
        rcases List.mem_cons.1 hx with rfl | hx
        · exact absurd hpx ha
        · exact ⟨x, hx, hpx⟩
      obtain ⟨k, x, hk, hx, hlow⟩ := ih h'
      refine ⟨k + 1, x, by simpa using hk, hx, ?_⟩
      intro m hm y hy
      cases m with
      | zero => simp at hy; subst hy; simpa using ha
      | succ m => exact hlow m (by omega) y (by simpa using hy)

theorem findFreeInode_of_lowest (fs : FileSystem) (i : Nat) (hi : fs.FreeList[i]? = some true)
    (hlow : ∀ k, k < i → fs.FreeList[k]? = some false) :
    findFreeInode fs = ((i : Int), claimed fs i) := by
  have h := firstIndex_of_lowest (fun fn => fn) fs.FreeList 0 i true hi rfl
    (fun m hm y hy => by rw [hlow m hm] at hy; simpa using hy.symm)
  simp only [Nat.zero_add] at h
  unfold findFreeInode claimed
  simp only [h]
  have hne : ¬ ((i : Int) = -1) := by omega
  simp only [hne, if_false, Int.toNat_ofNat]
  by_cases hlt : (fs.Inodes.length : Int) - 1 < (i : Int)
  · simp only [hlt, if_true]
    have : ((i : Int) + 1 - (fs.Inodes.length : Int)).toNat = i + 1 - fs.Inodes.length := by omega
    rw [this]
  · simp only [hlt, if_false]
    have : i + 1 - fs.Inodes.length = 0 := by omega
    simp [this]

theorem findFreeInode_of_full (fs : FileSystem) (h : true ∉ fs.FreeList) :
    findFreeInode fs = (-1, fs) := by
  have h1 : firstIndex (fun fn => fn) fs.FreeList 0 = -1 :=
    (firstIndex_eq_neg_one _ _ _).2 (fun x hx => by cases x <;> simp_all)
  simp [findFreeInode, h1]

theorem getElem?_set_false_ne (l : List Bool) (i k : Nat) (h : k ≠ i) (b : Bool) :
    (l.set i b)[k]? = l[k]? := by
  rw [List.getElem?_set]
  simp [Ne.symm h]

theorem exists_lowest_free (l : List Bool) (h : true ∈ l) :
    ∃ i : Nat, l[i]? = some true ∧ ∀ k, k < i → l[k]? = some false := by
  obtain ⟨i, x, hi, hx, hlow⟩ := exists_lowest (fun fn => fn) l ⟨true, h, rfl⟩
  have hx' : x = true := hx
  subst hx'
  refine ⟨i, hi, ?_⟩
  intro k hk
  have hlen : i < l.length := (List.getElem?_eq_some_iff.1 hi).1
  have hk' : k < l.length := by omega
  rw [List.getElem?_eq_getElem hk']
  have := hlow k hk l[k] (List.getElem?_eq_getElem hk')
  simpa using this

/-- C5 (first-fit allocation): when the FreeList has a `true` entry, `findFreeInode`
returns the lowest index `i` with `FreeList[i] = true` (every index below `i` is `false`);
afterwards `FreeList[i]` is `false`, every other FreeList entry and the FreeList length are
unchanged, the Inode Table has length `max (old length) (i + 1)`, its old elements are
unchanged, every element added by the growth is the zero-valued inode, and the Directory,
SuperBlock and CurrentDir are unchanged. -/
theorem findFreeInode_first_fit (fs : FileSystem) (h : true ∈ fs.FreeList) :
    ∃ i : Nat, (findFreeInode fs).1 = (i : Int) ∧
      fs.FreeList[i]? = some true ∧
      (∀ k, k < i → fs.FreeList[k]? = some false) ∧
      (findFreeInode fs).2.FreeList[i]? = some false ∧
      (∀ k, k ≠ i → (findFreeInode fs).2.FreeList[k]? = fs.FreeList[k]?) ∧
      (findFreeInode fs).2.FreeList.length = fs.FreeList.length ∧
      (findFreeInode fs).2.Inodes.length = max fs.Inodes.length (i + 1) ∧
      (∀ k, k < fs.Inodes.length → (findFreeInode fs).2.Inodes[k]? = fs.Inodes[k]?) ∧
      (∀ k, fs.Inodes.length ≤ k → k < i + 1 →
        (findFreeInode fs).2.Inodes[k]? = some Inode.zero) ∧
      (findFreeInode fs).2.Directory = fs.Directory ∧
      (findFreeInode fs).2.SuperBlock = fs.SuperBlock ∧
      (findFreeInode fs).2.CurrentDir = fs.CurrentDir := by
  obtain ⟨i, hi, hlow'⟩ := exists_lowest_free fs.FreeList h
  have hlen : i < fs.FreeList.length := (List.getElem?_eq_some_iff.1 hi).1
  refine ⟨i, ?_⟩
  rw [findFreeInode_of_lowest fs i hi hlow']
  refine ⟨rfl, hi, hlow', ?_, ?_, ?_, ?_, ?_, ?_, rfl, rfl, rfl⟩
  · simp [claimed, hlen]
  · intro k hk
    exact getElem?_set_false_ne _ _ _ hk _
  · simp [claimed]
  · simp only [claimed, List.length_append, List.length_replicate]
    omega
  · intro k hk
    simp only [claimed]
    rw [List.getElem?_append_left hk]
  · intro k hk1 hk2
    simp only [claimed]
    rw [List.getElem?_append_right hk1, List.getElem?_replicate]
    have : k - fs.Inodes.length < i + 1 - fs.Inodes.length := by omega
    simp [this]

theorem any_name_false (dir : List DirectoryEntry) (name : GoString)
    (h : ∀ e ∈ dir, e.Name ≠ name) : dir.any (fun entry => entry.Name == name) = false := by
  rw [List.any_eq_false]
  intro e he
  simpa using h e he

theorem any_name_true (dir : List DirectoryEntry) (name : GoString)
    (h : ∃ e ∈ dir, e.Name = name) : dir.any (fun entry => entry.Name == name) = true := by
  rw [List.any_eq_true]
  obtain ⟨e, he, hn⟩ := h
  exact ⟨e, he, by simpa using hn⟩

/-- What `CreateFile` returns once its three checks have passed and slot `i` is the
lowest free one. -/
theorem CreateFile_of_lowest (fs : FileSystem) (name : GoString) (data : List Byte)
    (now1 now2 : Time) (i : Nat) (hname : name ≠ [])
    (hfresh : ∀ e ∈ fs.Directory, e.Name ≠ name) (hdata : data.length ≤ 4096)
    (hi : fs.FreeList[i]? = some true) (hlow : ∀ k, k < i → fs.FreeList[k]? = some false) :
    CreateFile fs name data now1 now2 =
      { (claimed fs i) with
        Inodes := (claimed fs i).Inodes.set i
          { Data := data, Used := true, Permission := DEFAULT_FILE_PERMISSION,
            CreatedAt := now1, UpdatedAt := now2 }
        Directory := fs.Directory ++
          [{ Name := name, Inode := (i : Int), Permission := DEFAULT_FILE_PERMISSION }] } := by
  unfold CreateFile
  rw [if_neg hname, any_name_false _ _ hfresh, findFreeInode_of_lowest fs i hi hlow]
  have h1 : ¬ data.length > 4096 := by omega
  have h2 : ¬ ((i : Int) = -1) := by omega
  simp only [Bool.false_eq_true, if_false, h1, h2, Int.toNat_ofNat]
  rfl

theorem CreateFile_of_full (fs : FileSystem) (name : GoString) (data : List Byte)
    (now1 now2 : Time) (h : true ∉ fs.FreeList) : CreateFile fs name data now1 now2 = fs := by
  unfold CreateFile
  rw [findFreeInode_of_full fs h]
  simp

theorem CreateFile_of_name (fs : FileSystem) (name : GoString) (data : List Byte)
    (now1 now2 : Time) (h : name = [] ∨ ∃ e ∈ fs.Directory, e.Name = name) :
    CreateFile fs name data now1 now2 = fs := by
  unfold CreateFile
  rcases h with h | h
  · simp [h]
  · rw [any_name_true _ _ h]
    simp

/-- C6 (capacity exhaustion is atomic): when the FreeList has no `true` entry,
`findFreeInode` returns `-1`, `allocateInode` returns `-1`, `CreateFile` returns, and each of
the three leaves the whole aggregate exactly as it was. -/
theorem capacity_exhaustion_atomic (fs : FileSystem) (name : GoString) (data : List Byte)
    (permissions : GoString) (now1 now2 : Time) (h : true ∉ fs.FreeList) :
    findFreeInode fs = (-1, fs) ∧
      allocateInode fs data permissions now1 now2 = (-1, fs) ∧
      CreateFile fs name data now1 now2 = fs := by
  have hf := findFreeInode_of_full fs h
  refine ⟨hf, ?_, ?_⟩
  · simp [allocateInode, hf]
  · exact CreateFile_of_full fs name data now1 now2 h

/-- C2 (success postcondition of `CreateFile`): for a non-empty name that no entry carries,
data of at most 4096 bytes and `i` the lowest free index, the Directory becomes the old one
followed by the single entry `{name, i, "rw-r--r--"}`, `Inodes[i]` holds the data with
`used = true`, permission `"rw-r--r--"` and the two clock readings of the call as its
timestamps, `FreeList[i]` is `false`, every other FreeList entry is unchanged, and every
inode slot that existed before, other than slot `i`, is unchanged. -/
theorem CreateFile_success (fs : FileSystem) (name : GoString) (data : List Byte)
    (now1 now2 : Time) (i : Nat) (hname : name ≠ [])
    (hfresh : ∀ e ∈ fs.Directory, e.Name ≠ name) (hdata : data.length ≤ 4096)
    (hi : fs.FreeList[i]? = some true) (hlow : ∀ k, k < i → fs.FreeList[k]? = some false) :
    (CreateFile fs name data now1 now2).Directory =
        fs.Directory ++ [{ Name := name, Inode := (i : Int), Permission := str "rw-r--r--" }] ∧
      (CreateFile fs name data now1 now2).Inodes[i]? =
        some { Data := data, Used := true, Permission := str "rw-r--r--",
               CreatedAt := now1, UpdatedAt := now2 } ∧
      (CreateFile fs name data now1 now2).FreeList[i]? = some false ∧
      (∀ k, k ≠ i → (CreateFile fs name data now1 now2).FreeList[k]? = fs.FreeList[k]?) ∧
      (∀ k, k < fs.Inodes.length → k ≠ i →
        (CreateFile fs name data now1 now2).Inodes[k]? = fs.Inodes[k]?) := by
  rw [CreateFile_of_lowest fs name data now1 now2 i hname hfresh hdata hi hlow]
  have hlen : i < fs.FreeList.length := (List.getElem?_eq_some_iff.1 hi).1
  refine ⟨rfl, ?_, ?_, ?_, ?_⟩
  · simp only [claimed]
    rw [List.getElem?_set_self]
    · rfl
    · simp only [List.length_append, List.length_replicate]; omega
  · simp [claimed, hlen]
  · intro k hk
    exact getElem?_set_false_ne _ _ _ hk _
  · intro k hk hne
    simp only [claimed]
    rw [List.getElem?_set_ne (Ne.symm hne), List.getElem?_append_left hk]

/-- C7 (size boundary of `CreateFile`): with a free FreeList entry and a non-empty name not in
the Directory, a payload of exactly 4096 bytes is stored (the Directory gains one entry, bound
to an inode that holds the payload), and a payload longer than 4096 bytes leaves the whole
aggregate unchanged. -/
theorem CreateFile_size_boundary (fs : FileSystem) (name : GoString) (data : List Byte)
    (now1 now2 : Time) (hfree : true ∈ fs.FreeList) (hname : name ≠ [])
    (hfresh : ∀ e ∈ fs.Directory, e.Name ≠ name) :
    (data.length = 4096 →
      ∃ i : Nat,
        (CreateFile fs name data now1 now2).Directory =
          fs.Directory ++ [{ Name := name, Inode := (i : Int), Permission := str "rw-r--r--" }] ∧
        ((CreateFile fs name data now1 now2).Inodes[i]?).map (fun inode => inode.Data) =
          some data) ∧
      (data.length > 4096 → CreateFile fs name data now1 now2 = fs) := by
  constructor
  · intro hlen
    obtain ⟨i, hi, hlow⟩ := exists_lowest_free fs.FreeList hfree
    rw [CreateFile_of_lowest fs name data now1 now2 i hname hfresh (by omega) hi hlow]
    refine ⟨i, rfl, ?_⟩
    simp only [claimed]
    rw [List.getElem?_set_self]
    · rfl
    · simp only [List.length_append, List.length_replicate]; omega
  · intro hlen
    unfold CreateFile
    rw [if_neg hname, any_name_false _ _ hfresh]
    simp [hlen]

/-- C8 (name validation of `CreateFile`): with the empty name, or a name equal byte for byte to
the name of an existing entry, `CreateFile` leaves the whole aggregate unchanged; and calling
`CreateFile` a second time with the same name, after a first call with data of at most 4096
bytes, leaves exactly the state of the first call, with the same Directory length. -/
theorem CreateFile_name_rejected (fs : FileSystem) (name : GoString) (data data' : List Byte)
    (now1 now2 now3 now4 : Time) :
    ((name = [] ∨ ∃ e ∈ fs.Directory, e.Name = name) →
        CreateFile fs name data now1 now2 = fs) ∧
      (data.length ≤ 4096 →
        CreateFile (CreateFile fs name data now1 now2) name data' now3 now4 =
            CreateFile fs name data now1 now2 ∧
          (CreateFile (CreateFile fs name data now1 now2) name data' now3 now4).Directory.length =
            (CreateFile fs name data now1 now2).Directory.length) := by
  have hrej : ∀ (fs : FileSystem) (d : List Byte) (t1 t2 : Time),
      (name = [] ∨ ∃ e ∈ fs.Directory, e.Name = name) → CreateFile fs name d t1 t2 = fs :=
    fun fs d t1 t2 h => CreateFile_of_name fs name d t1 t2 h
  refine ⟨hrej fs data now1 now2, ?_⟩
  intro hdata
  have key : CreateFile (CreateFile fs name data now1 now2) name data' now3 now4 =
      CreateFile fs name data now1 now2 := by
    by_cases hname : name = []
    · rw [hrej fs data now1 now2 (Or.inl hname)]
      exact hrej fs data' now3 now4 (Or.inl hname)
    · by_cases hdup : ∃ e ∈ fs.Directory, e.Name = name
      · rw [hrej fs data now1 now2 (Or.inr hdup)]
        exact hrej fs data' now3 now4 (Or.inr hdup)
      · have hfresh : ∀ e ∈ fs.Directory, e.Name ≠ name := by
          intro e he hn
          exact hdup ⟨e, he, hn⟩
        by_cases hfree : true ∈ fs.FreeList
        · obtain ⟨i, hi, hlow⟩ := exists_lowest_free fs.FreeList hfree
          apply hrej
          right
          rw [CreateFile_of_lowest fs name data now1 now2 i hname hfresh hdata hi hlow]
          exact ⟨{ Name := name, Inode := (i : Int), Permission := DEFAULT_FILE_PERMISSION },
            by simp, rfl⟩
        · rw [CreateFile_of_full fs name data now1 now2 hfree]
          exact CreateFile_of_full fs name data' now3 now4 hfree
  exact ⟨key, by rw [key]⟩

/-- What `DeleteFile` returns when the first entry called `name` is at position `p`
and is bound to inode index `j`, with `j` inside the Inode Table and the FreeList. -/
theorem DeleteFile_of_first (fs : FileSystem) (name : GoString) (p j : Nat) (e : DirectoryEntry)
    (hname : name ≠ []) (hp : fs.Directory[p]? = some e) (he : e.Name = name)
    (hfirst : ∀ k, k < p → ∀ e', fs.Directory[k]? = some e' → e'.Name ≠ name)
    (hj : e.Inode = (j : Int)) (hjI : j < fs.Inodes.length) (hjF : j < fs.FreeList.length) :
    DeleteFile fs name = some
      { fs with
        Directory := fs.Directory.eraseIdx p
        Inodes := fs.Inodes.eraseIdx j
        FreeList := fs.FreeList.set j true } := by
  have h := firstIndex_of_lowest (fun entry : DirectoryEntry => entry.Name == name)
    fs.Directory 0 p e hp (by simpa using he)
    (fun m hm y hy => by simpa using hfirst m hm y hy)
  simp only [Nat.zero_add] at h
  unfold DeleteFile
  rw [if_neg hname]
  simp only [h]
  have hne : ¬ ((p : Int) = -1) := by omega
  have h1 : (0 : Int) ≤ (j : Int) ∧ (j : Int) + 1 ≤ (fs.Inodes.length : Int) := by omega
  have h2 : (j : Int) < (fs.FreeList.length : Int) := by omega
  simp only [hne, if_false, Int.toNat_ofNat, hp, hj, h1, h2, and_self, if_true,
    List.eraseIdx_eq_take_drop_succ]

theorem DeleteFile_of_no_match (fs : FileSystem) (name : GoString)
    (h : name = [] ∨ ∀ e ∈ fs.Directory, e.Name ≠ name) : DeleteFile fs name = some fs := by
  unfold DeleteFile
  by_cases hname : name = []
  · simp [hname]
  · rw [if_neg hname]
    have hno : ∀ e ∈ fs.Directory, e.Name ≠ name := by
      rcases h with h | h
      · exact absurd h hname
      · exact h
    have h1 : firstIndex (fun entry : DirectoryEntry => entry.Name == name) fs.Directory 0 = -1 :=
      (firstIndex_eq_neg_one _ _ _).2 (fun x hx => by simpa using hno x hx)
    simp [h1]

/-- C9 (`DeleteFile` without a match): with the empty name, or a name that no directory entry
carries, `DeleteFile` completes and leaves the whole aggregate unchanged. -/
theorem DeleteFile_no_match_noop (fs : FileSystem) (name : GoString)
    (h : name = [] ∨ ∀ e ∈ fs.Directory, e.Name ≠ name) : DeleteFile fs name = some fs :=
  DeleteFile_of_no_match fs name h

/-- C3 (`DeleteFile` on a match): when the first entry called `name` is at position `p` and
is bound to inode index `j`, inside the Inode Table and the FreeList, `DeleteFile` completes;
the Directory is the old one with position `p` removed (the other entries keep their order and
their stored inode index), the Inode Table is the old one with position `j` removed (the inode
formerly at `k > j` is now at `k - 1`), `FreeList[j]` is `true` and every other FreeList entry
is unchanged. -/
theorem DeleteFile_match (fs : FileSystem) (name : GoString) (p j : Nat) (e : DirectoryEntry)
    (hname : name ≠ []) (hp : fs.Directory[p]? = some e) (he : e.Name = name)
    (hfirst : ∀ k, k < p → ∀ e', fs.Directory[k]? = some e' → e'.Name ≠ name)
    (hj : e.Inode = (j : Int)) (hjI : j < fs.Inodes.length) (hjF : j < fs.FreeList.length) :
    ∃ fs', DeleteFile fs name = some fs' ∧
      fs'.Directory = fs.Directory.eraseIdx p ∧
      (∀ k, k < p → fs'.Directory[k]? = fs.Directory[k]?) ∧
      (∀ k, p ≤ k → fs'.Directory[k]? = fs.Directory[k + 1]?) ∧
      fs'.Inodes = fs.Inodes.eraseIdx j ∧
      (∀ k, k < j → fs'.Inodes[k]? = fs.Inodes[k]?) ∧
      (∀ k, j < k → fs'.Inodes[k - 1]? = fs.Inodes[k]?) ∧
      fs'.FreeList[j]? = some true ∧
      (∀ k, k ≠ j → fs'.FreeList[k]? = fs.FreeList[k]?) ∧
      fs'.SuperBlock = fs.SuperBlock ∧ fs'.CurrentDir = fs.CurrentDir := by
  refine ⟨_, DeleteFile_of_first fs name p j e hname hp he hfirst hj hjI hjF,
    rfl, ?_, ?_, rfl, ?_, ?_, ?_, ?_, rfl, rfl⟩
  · intro k hk
    exact List.getElem?_eraseIdx_of_lt _ _ _ hk
  · intro k hk
    exact List.getElem?_eraseIdx_of_ge _ _ _ hk
  · intro k hk
    exact List.getElem?_eraseIdx_of_lt _ _ _ hk
  · intro k hk
    have := List.getElem?_eraseIdx_of_ge fs.Inodes j (k - 1) (by omega)
    rw [this]
    congr 1
    omega
  · simp [hjF]
  · intro k hk
    exact getElem?_set_false_ne _ _ _ hk _

theorem initFreeList_eq (n : Nat) (fl : List Bool) (h : n ≤ fl.length) :
    initFreeList n fl = List.replicate n true ++ fl.drop n := by
  unfold initFreeList
  induction n with
  | zero => simp
  | succ n ih =>
    rw [List.range_succ, List.foldl_append, ih (by omega)]
    simp only [List.foldl_cons, List.foldl_nil]
    apply List.ext_getElem?
    intro k
    rw [List.getElem?_set]
    by_cases hk : n = k
    · subst hk
      simp only [if_true, List.length_append, List.length_replicate, List.length_drop]
      have h1 : n < n + (fl.length - n) := by omega
      rw [if_pos h1, List.getElem?_append_left (by simp)]
      simp
    · simp only [hk, if_false]
      by_cases hlt : k < n
      · rw [List.getElem?_append_left (by simpa using hlt),
          List.getElem?_append_left (by simp; omega)]
        simp [hlt, Nat.lt_succ_of_lt hlt]
      · rw [List.getElem?_append_right (by simp; omega),
          List.getElem?_append_right (by simp; omega)]
        simp only [List.length_replicate, List.getElem?_drop]
        congr 1
        omega

theorem allocateInode_of_lowest (fs : FileSystem) (data : List Byte) (permissions : GoString)
    (now1 now2 : Time) (i : Nat) (hi : fs.FreeList[i]? = some true)
    (hlow : ∀ k, k < i → fs.FreeList[k]? = some false) :
    allocateInode fs data permissions now1 now2 =
      ((i : Int),
        { (claimed fs i) with
          Inodes := (claimed fs i).Inodes.set i
            { Data := data, Used := true, Permission := permissions,
              CreatedAt := now1, UpdatedAt := now2 } }) := by
  unfold allocateInode
  rw [findFreeInode_of_lowest fs i hi hlow]
  have h2 : ((i : Int) ≠ -1) := by omega
  simp only [h2, ne_eq, not_false_eq_true, if_true, Int.toNat_ofNat]


/-- The aggregate `CreateFileSystem` builds, written out. -/
theorem CreateFileSystem_eq (now1 now2 : Time) :
    CreateFileSystem now1 now2 =
      { SuperBlock := { TotalBlocks := 1000, BlockSize := 4096 }
        FreeList := false :: List.replicate 999 true
        Directory := [{ Name := str "/", Inode := 0, Permission := str "rwxr-xr-x" }]
        Inodes := [{ Data := List.replicate 4096 0, Used := true, Permission := str "rwxr-xr-x",
                     CreatedAt := now1, UpdatedAt := now2 }]
        CurrentDir := str "/" } := by
  have hinit : initFreeList (1000 : Int).toNat (List.replicate 1000 false) =
      true :: List.replicate 999 true := by
    have h1000 : (1000 : Int).toNat = 1000 := rfl
    rw [h1000, initFreeList_eq 1000 _ (by rw [List.length_replicate]),
      List.drop_eq_nil_of_le (by rw [List.length_replicate]), List.append_nil]
    exact List.replicate_succ true 999
  unfold CreateFileSystem
  dsimp only
  rw [hinit, allocateInode_of_lowest _ _ _ now1 now2 0 List.getElem?_cons_zero
    (fun k hk => absurd hk (Nat.not_lt_zero k))]
  rfl

set_option maxRecDepth 100000

/-- C10 (fresh filesystem): the aggregate `CreateFileSystem` builds and hands to
`SaveFileSystem` has `totalBlocks = 1000`, `blockSize = 4096`, currentDir `"/"`, a FreeList of
length 1000 whose only `false` entry is index 0, a Directory of exactly one entry named `"/"`
with permission `"rwxr-xr-x"` and inode index 0, and `Inodes[0]` is used, has permission
`"rwxr-xr-x"` and a payload of 4096 zero bytes. -/
theorem CreateFileSystem_fresh (now1 now2 : Time) :
    (CreateFileSystem now1 now2).SuperBlock.TotalBlocks = 1000 ∧
      (CreateFileSystem now1 now2).SuperBlock.BlockSize = 4096 ∧
      (CreateFileSystem now1 now2).CurrentDir = str "/" ∧
      (CreateFileSystem now1 now2).FreeList.length = 1000 ∧
      (∀ k : Nat, (CreateFileSystem now1 now2).FreeList[k]? = some false ↔ k = 0) ∧
      (CreateFileSystem now1 now2).FreeList.count false = 1 ∧
      (CreateFileSystem now1 now2).Directory =
        [{ Name := str "/", Inode := 0, Permission := str "rwxr-xr-x" }] ∧
      (CreateFileSystem now1 now2).Inodes[0]? =
        some { Data := List.replicate 4096 0, Used := true, Permission := str "rwxr-xr-x",
               CreatedAt := now1, UpdatedAt := now2 } ∧
      CreateFileSystemImage now1 now2 = SaveFileSystem (CreateFileSystem now1 now2) := by
  have h := CreateFileSystem_eq now1 now2
  refine ⟨by rw [h], by rw [h], by rw [h], ?_, ?_, ?_, by rw [h], by rw [h]; rfl, rfl⟩
  · rw [h]
    show (false :: List.replicate 999 true).length = 1000
    rw [List.length_cons, List.length_replicate]
  · intro k
    rw [h]
    show (false :: List.replicate 999 true)[k]? = some false ↔ k = 0
    cases k with
    | zero => exact ⟨fun _ => rfl, fun _ => rfl⟩
    | succ k =>
      rw [List.getElem?_cons_succ, List.getElem?_replicate]
      constructor
      · intro h
        split at h <;> simp at h
      · intro h
        omega
  · rw [h]
    show (false :: List.replicate 999 true).count false = 1
    rw [List.count_cons_self, List.count_replicate]
    rfl

/-- The aggregate after the two `CreateFile` calls of the end-to-end scenario. -/
theorem scenario_created (n1 n2 n3 n4 n5 n6 : Time) :
    CreateFile (CreateFile (CreateFileSystem n1 n2) (str "t1.txt") (str "hi") n3 n4)
        (str "t2.txt") (str "yo") n5 n6 =
      { SuperBlock := { TotalBlocks := 1000, BlockSize := 4096 }
        FreeList := false :: false :: false :: List.replicate 997 true
        Directory :=
          [{ Name := str "/", Inode := 0, Permission := str "rwxr-xr-x" },
           { Name := str "t1.txt", Inode := 1, Permission := str "rw-r--r--" },
           { Name := str "t2.txt", Inode := 2, Permission := str "rw-r--r--" }]
        Inodes :=
          [{ Data := List.replicate 4096 0, Used := true, Permission := str "rwxr-xr-x",
             CreatedAt := n1, UpdatedAt := n2 },
           { Data := str "hi", Used := true, Permission := str "rw-r--r--",
             CreatedAt := n3, UpdatedAt := n4 },
           { Data := str "yo", Used := true, Permission := str "rw-r--r--",
             CreatedAt := n5, UpdatedAt := n6 }]
        CurrentDir := str "/" } := by
  have h1 : CreateFile (CreateFileSystem n1 n2) (str "t1.txt") (str "hi") n3 n4 =
      { SuperBlock := { TotalBlocks := 1000, BlockSize := 4096 }
        FreeList := false :: false :: true :: List.replicate 997 true
        Directory :=
          [{ Name := str "/", Inode := 0, Permission := str "rwxr-xr-x" },
           { Name := str "t1.txt", Inode := 1, Permission := str "rw-r--r--" }]
        Inodes :=
          [{ Data := List.replicate 4096 0, Used := true, Permission := str "rwxr-xr-x",
             CreatedAt := n1, UpdatedAt := n2 },
           { Data := str "hi", Used := true, Permission := str "rw-r--r--",
             CreatedAt := n3, UpdatedAt := n4 }]
        CurrentDir := str "/" } := by
    rw [CreateFileSystem_eq, List.replicate_succ true 998, List.replicate_succ true 997]
    rw [CreateFile_of_lowest _ _ _ n3 n4 1]
    · rfl
    · decide
    · intro e he
      rw [List.mem_singleton.1 he]
      decide
    · decide
    · rfl
    · intro k hk
      have : k = 0 := by omega
      subst this
      rfl
  rw [h1]
  rw [CreateFile_of_lowest _ _ _ n5 n6 2]
  · rfl
  · decide
  · intro e he
    rcases List.mem_cons.1 he with rfl | he
    · decide
    · rw [List.mem_singleton.1 he]
      decide
  · decide
  · rfl
  · intro k hk
    have : k = 0 ∨ k = 1 := by omega
    rcases this with rfl | rfl <;> rfl

/-- C4 (end-to-end scenario, as the code runs it): after the two `CreateFile` calls on a fresh
aggregate the Directory lists `"/"`, `"t1.txt"`, `"t2.txt"`; `DeleteFile "t1.txt"` then
completes and leaves two entries, but the entry `"t2.txt"` still stores inode index 2 while
the Inode Table has only 2 elements, so no inode stands at that index: the inode holding
`"yo"` has moved to position 1. -/
theorem scenario_deleted (n1 n2 n3 n4 n5 n6 : Time) :
    ((CreateFile (CreateFile (CreateFileSystem n1 n2) (str "t1.txt") (str "hi") n3 n4)
        (str "t2.txt") (str "yo") n5 n6).Directory.map fun entry => entry.Name) =
      [str "/", str "t1.txt", str "t2.txt"] ∧
    ∃ fs, DeleteFile
        (CreateFile (CreateFile (CreateFileSystem n1 n2) (str "t1.txt") (str "hi") n3 n4)
          (str "t2.txt") (str "yo") n5 n6) (str "t1.txt") = some fs ∧
      fs.Directory =
        [{ Name := str "/", Inode := 0, Permission := str "rwxr-xr-x" },
         { Name := str "t2.txt", Inode := 2, Permission := str "rw-r--r--" }] ∧
      fs.Inodes.length = 2 ∧
      fs.Inodes[2]? = none ∧
      fs.Inodes[1]? = some { Data := str "yo", Used := true, Permission := str "rw-r--r--",
                             CreatedAt := n5, UpdatedAt := n6 } := by
  rw [scenario_created]
  refine ⟨rfl, ?_⟩
  refine ⟨_, DeleteFile_of_first _ (str "t1.txt") 1 1
    { Name := str "t1.txt", Inode := 1, Permission := str "rw-r--r--" }
    (by decide) rfl rfl ?_ rfl ?_ ?_, rfl, rfl, rfl, rfl⟩
  · intro k hk e' he'
    have : k = 0 := by omega
    subst this
    simp only [List.getElem?_cons_zero, Option.some.injEq] at he'
    subst he'
    decide
  · show 1 < 3
    decide
  · exact Nat.succ_lt_succ (Nat.succ_pos _)

/-! ## Round trip of the codec -/

theorem readBytes_append (a rest : List Byte) (n : Nat) (h : a.length = n) :
    readBytes n (a ++ rest) = (a, rest) := by
  subst h
  simp [readBytes]

theorem putU32_length (v : Nat) : (putU32 v).length = 4 := rfl

theorem putBool_length (b : Bool) : (putBool b).length = 1 := rfl

theorem putI64_length (v : Int) : (putI64 v).length = 8 := rfl

theorem toNat_ofNat (n : Nat) : (UInt8.ofNat n).toNat = n % 256 := rfl

theorem getU32_putU32 (v : Nat) : getU32 (putU32 v) = v % 4294967296 := by
  simp only [getU32, putU32, List.getD_cons_zero, List.getD_cons_succ, toNat_ofNat]
  omega

theorem getU32_putU32_of_lt (v : Nat) (h : v < 4294967296) : getU32 (putU32 v) = v := by
  rw [getU32_putU32]
  omega

theorem uint32_natCast (n : Nat) (h : n < 4294967296) : uint32 (n : Int) = n := by
  unfold uint32
  omega

theorem uint32_of_range (x : Int) (h0 : 0 ≤ x) (h1 : x < 4294967296) :
    ((uint32 x : Nat) : Int) = x := by
  unfold uint32
  omega

theorem uint32_lt (x : Int) : uint32 x < 4294967296 := by
  unfold uint32
  omega

theorem int64_getU64_putI64 (v : Int) (h0 : -9223372036854775808 ≤ v)
    (h1 : v < 9223372036854775808) : int64 (getU64 (putI64 v)) = v := by
  have htake : ∀ a b : Nat, (putU32 a ++ putU32 b).take 4 = putU32 a := fun _ _ => rfl
  have hdrop : ∀ a b : Nat, (putU32 a ++ putU32 b).drop 4 = putU32 b := fun _ _ => rfl
  unfold getU64 putI64 int64
  rw [htake, hdrop, getU32_putU32, getU32_putU32]
  split <;> omega

theorem encodeFreeList_length (fl : List Bool) : (encodeFreeList fl).length = fl.length := by
  induction fl with
  | nil => rfl
  | cons b fl ih => simp [encodeFreeList, putBool, ih]

theorem decodeFreeList_encodeFreeList (fl : List Bool) :
    decodeFreeList (encodeFreeList fl) = fl := by
  induction fl with
  | nil => rfl
  | cons b fl ih =>
    unfold decodeFreeList at ih ⊢
    simp only [encodeFreeList, putBool, List.singleton_append, List.map_cons, ih]
    cases b <;> rfl

theorem decodeDirectoryEntries_encode (dir : List DirectoryEntry) (rest : List Byte)
    (h : ∀ e ∈ dir, ValidEntry e) :
    decodeDirectoryEntries dir.length (encodeDirectoryEntries dir ++ rest) = (dir, rest) := by
  induction dir with
  | nil => rfl
  | cons e dir ih =>
    obtain ⟨h1, h2, h3, h4⟩ := h e (List.mem_cons_self _ _)
    have ih' := ih (fun e' he' => h e' (List.mem_cons_of_mem _ he'))
    simp only [List.length_cons, decodeDirectoryEntries, encodeDirectoryEntries,
      encodeDirectoryEntry, List.append_assoc]
    rw [readBytes_append _ _ 4 (putU32_length _)]
    simp only []
    rw [getU32_putU32_of_lt _ (uint32_lt _), uint32_natCast _ h1,
      readBytes_append _ _ e.Name.length rfl]
    simp only []
    rw [readBytes_append _ _ 4 (putU32_length _)]
    simp only []
    rw [readBytes_append _ _ 9 h4]
    simp only []
    rw [ih', getU32_putU32_of_lt _ (uint32_lt _), uint32_of_range _ h2 h3]

theorem putBool_getD (b : Bool) :
    (if (putBool b).getD 0 0 != 0 then true else false) = b := by
  cases b <;> rfl

theorem decodeInodeList_encode (inodes : List Inode) (rest : List Byte)
    (h : ∀ i ∈ inodes, ValidInode i) :
    decodeInodeList inodes.length (encodeInodeList inodes ++ rest) = (inodes, rest) := by
  induction inodes with
  | nil => rfl
  | cons i inodes ih =>
    obtain ⟨h1, h2, ⟨hc0, hc1, hc2⟩, ⟨hu0, hu1, hu2⟩⟩ := h i (List.mem_cons_self _ _)
    have ih' := ih (fun i' hi' => h i' (List.mem_cons_of_mem _ hi'))
    simp only [List.length_cons, decodeInodeList, encodeInodeList, encodeInode,
      List.append_assoc]
    rw [readBytes_append _ _ 4 (putU32_length _)]
    simp only []
    rw [getU32_putU32_of_lt _ (uint32_lt _), uint32_natCast _ h1,
      readBytes_append _ _ i.Data.length rfl]
    simp only []
    rw [readBytes_append _ _ 1 (putBool_length _)]
    simp only []
    rw [readBytes_append _ _ 9 h2]
    simp only []
    rw [readBytes_append _ _ 8 (putI64_length _)]
    simp only []
    rw [readBytes_append _ _ 8 (putI64_length _)]
    simp only []
    rw [ih', putBool_getD, Time.Unix, Time.Unix, int64_getU64_putI64 _ hc1 hc2,
      int64_getU64_putI64 _ hu1 hu2]
    have e1 : Time.ofUnix i.CreatedAt.sec = i.CreatedAt := by
      cases hc : i.CreatedAt with
      | mk s n => rw [hc] at hc0; simp only at hc0; subst hc0; rfl
    have e2 : Time.ofUnix i.UpdatedAt.sec = i.UpdatedAt := by
      cases hu : i.UpdatedAt with
      | mk s n => rw [hu] at hu0; simp only at hu0; subst hu0; rfl
    rw [e1, e2]

/-- C1 (round trip of the codec): for every valid aggregate, `LoadFileSystem` applied to the
bytes `SaveFileSystem` writes gives back the aggregate, field for field. -/
theorem LoadFileSystem_SaveFileSystem (fs : FileSystem) (h : ValidAggregate fs) :
    LoadFileSystem (SaveFileSystem fs) = fs := by
  obtain ⟨t0, t1, b0, b1, hfl, hd, hde, hi, hie, hc⟩ := h
  have hsb : ∀ a b : Nat, ∀ rest : List Byte,
      readBytes 8 (putU32 a ++ (putU32 b ++ rest)) = (putU32 a ++ putU32 b, rest) := by
    intro a b rest
    rw [← List.append_assoc]
    exact readBytes_append _ _ 8 rfl
  have htake : ∀ a b : Nat, (putU32 a ++ putU32 b).take 4 = putU32 a := fun _ _ => rfl
  have hdrop : ∀ a b : Nat, (putU32 a ++ putU32 b).drop 4 = putU32 b := fun _ _ => rfl
  have hflen : fs.FreeList.length = uint32 fs.SuperBlock.TotalBlocks := by
    unfold uint32
    omega
  simp only [LoadFileSystem, SaveFileSystem, encodeSuperBlock, encodeDirectory, encodeInodes,
    encodeCurrDirecrory, List.append_assoc]
  rw [hsb]
  simp only []
  rw [htake, hdrop, getU32_putU32_of_lt _ (uint32_lt _), getU32_putU32_of_lt _ (uint32_lt _),
    readBytes_append _ _ _ ((encodeFreeList_length _).trans hflen)]
  simp only []
  rw [readBytes_append _ _ 4 (putU32_length _)]
  simp only []
  rw [getU32_putU32_of_lt _ (uint32_lt _), uint32_natCast _ hd,
    decodeDirectoryEntries_encode _ _ hde]
  simp only []
  rw [readBytes_append _ _ 4 (putU32_length _)]
  simp only []
  rw [getU32_putU32_of_lt _ (uint32_lt _), uint32_natCast _ hi, decodeInodeList_encode _ _ hie]
  simp only []
  rw [readBytes_append _ _ 4 (putU32_length _)]
  simp only []
  rw [getU32_putU32_of_lt _ (uint32_lt _), uint32_natCast _ hc]
  have hlast : readBytes fs.CurrentDir.length fs.CurrentDir = (fs.CurrentDir, []) := by
    have := readBytes_append fs.CurrentDir [] _ rfl
    rwa [List.append_nil] at this
  rw [hlast, decodeFreeList_encodeFreeList, uint32_of_range _ t0 t1, uint32_of_range _ b0 b1]


/-! ## The theorems at concrete inputs -/

theorem LoadFileSystem_SaveFileSystem_witness :
    ValidAggregate sampleFs ∧ LoadFileSystem (SaveFileSystem sampleFs) = sampleFs :=
  ⟨by decide, LoadFileSystem_SaveFileSystem sampleFs (by decide)⟩

theorem CreateFile_success_witness :
    sampleFs.FreeList[1]? = some true ∧
      (CreateFile sampleFs (str "a") (str "hi") sampleNow sampleNow).Directory =
        sampleFs.Directory ++ [{ Name := str "a", Inode := 1, Permission := str "rw-r--r--" }] ∧
      (CreateFile sampleFs (str "a") (str "hi") sampleNow sampleNow).Inodes[1]? =
        some { Data := str "hi", Used := true, Permission := str "rw-r--r--",
               CreatedAt := sampleNow, UpdatedAt := sampleNow } :=
  have h := CreateFile_success sampleFs (str "a") (str "hi") sampleNow sampleNow 1
    (by decide) (by decide) (by decide) (by decide) (by decide)
  ⟨by decide, h.1, h.2.1⟩

theorem DeleteFile_match_witness :
    ∃ fs', DeleteFile fullFs (str "a") = some fs' ∧
      fs'.Directory = fullFs.Directory.eraseIdx 1 ∧
      fs'.Inodes = fullFs.Inodes.eraseIdx 1 ∧
      fs'.FreeList[1]? = some true := by
  obtain ⟨fs', h1, h2, _, _, h3, _, _, h4, _⟩ :=
    DeleteFile_match fullFs (str "a") 1 1
      { Name := str "a", Inode := 1, Permission := str "rw-r--r--" }
      (by decide) (by decide) (by decide)
      (fun k hk e' he' => by
        have hk0 : k = 0 := by omega
        subst hk0
        have he : e' = { Name := str "/", Inode := 0, Permission := str "rwxr-xr-x" } := by
          have h0 : fullFs.Directory[0]? =
              some { Name := str "/", Inode := 0, Permission := str "rwxr-xr-x" } := by decide
          rw [h0] at he'
          exact (Option.some.inj he').symm
        subst he
        decide)
      (by decide) (by decide) (by decide)
  exact ⟨fs', h1, h2, h3, h4⟩

theorem findFreeInode_first_fit_witness :
    true ∈ sampleFs.FreeList ∧
      ∃ i : Nat, (findFreeInode sampleFs).1 = (i : Int) ∧ sampleFs.FreeList[i]? = some true := by
  obtain ⟨i, h1, h2, _⟩ := findFreeInode_first_fit sampleFs (by decide)
  exact ⟨by decide, i, h1, h2⟩

theorem capacity_exhaustion_atomic_witness :
    true ∉ fullFs.FreeList ∧
      findFreeInode fullFs = (-1, fullFs) ∧
      allocateInode fullFs (str "hi") (str "rw-r--r--") sampleNow sampleNow = (-1, fullFs) ∧
      CreateFile fullFs (str "b") (str "hi") sampleNow sampleNow = fullFs :=
  ⟨by decide,
    capacity_exhaustion_atomic fullFs (str "b") (str "hi") (str "rw-r--r--") sampleNow sampleNow
      (by decide)⟩

theorem CreateFile_size_boundary_witness :
    (∃ i : Nat,
        (CreateFile sampleFs (str "a") (List.replicate 4096 7) sampleNow sampleNow).Directory =
          sampleFs.Directory ++
            [{ Name := str "a", Inode := (i : Int), Permission := str "rw-r--r--" }] ∧
        ((CreateFile sampleFs (str "a") (List.replicate 4096 7) sampleNow sampleNow).Inodes[i]?).map
          (fun inode => inode.Data) = some (List.replicate 4096 7)) ∧
      CreateFile sampleFs (str "a") (List.replicate 4097 7) sampleNow sampleNow = sampleFs :=
  ⟨(CreateFile_size_boundary sampleFs (str "a") (List.replicate 4096 7) sampleNow sampleNow
      (by decide) (by decide) (by decide)).1 (List.length_replicate _ _),
    (CreateFile_size_boundary sampleFs (str "a") (List.replicate 4097 7) sampleNow sampleNow
      (by decide) (by decide) (by decide)).2
      (by rw [List.length_replicate]; decide)⟩

theorem CreateFile_name_rejected_witness :
    CreateFile fullFs (str "a") (str "yo") sampleNow sampleNow = fullFs ∧
      CreateFile (CreateFile sampleFs (str "a") (str "hi") sampleNow sampleNow) (str "a")
          (str "yo") sampleNow sampleNow =
        CreateFile sampleFs (str "a") (str "hi") sampleNow sampleNow :=
  ⟨(CreateFile_name_rejected fullFs (str "a") (str "yo") (str "yo")
      sampleNow sampleNow sampleNow sampleNow).1 (Or.inr (by decide)),
    ((CreateFile_name_rejected sampleFs (str "a") (str "hi") (str "yo")
      sampleNow sampleNow sampleNow sampleNow).2 (by decide)).1⟩

theorem DeleteFile_no_match_noop_witness :
    (∀ e ∈ sampleFs.Directory, e.Name ≠ str "zz") ∧ DeleteFile sampleFs (str "zz") = some sampleFs :=
  ⟨by decide, DeleteFile_no_match_noop sampleFs (str "zz") (Or.inr (by decide))⟩

/-! ## The outcomes of the file operations -/

theorem CreateFile_cases (fs : FileSystem) (name : GoString) (data : List Byte)
    (now1 now2 : Time) :
    CreateFile fs name data now1 now2 = fs ∨
      ∃ i : Nat, name ≠ [] ∧ (∀ e ∈ fs.Directory, e.Name ≠ name) ∧
        fs.FreeList[i]? = some true ∧ (∀ k, k < i → fs.FreeList[k]? = some false) ∧
        CreateFile fs name data now1 now2 =
          { (claimed fs i) with
            Inodes := (claimed fs i).Inodes.set i
              { Data := data, Used := true, Permission := DEFAULT_FILE_PERMISSION,
                CreatedAt := now1, UpdatedAt := now2 }
            Directory := fs.Directory ++
              [{ Name := name, Inode := (i : Int), Permission := DEFAULT_FILE_PERMISSION }] } := by
  by_cases hname : name = []
  · exact Or.inl (CreateFile_of_name fs name data now1 now2 (Or.inl hname))
  by_cases hdup : ∃ e ∈ fs.Directory, e.Name = name
  · exact Or.inl (CreateFile_of_name fs name data now1 now2 (Or.inr hdup))
  have hfresh : ∀ e ∈ fs.Directory, e.Name ≠ name := fun e he hn => hdup ⟨e, he, hn⟩
  by_cases hlen : data.length > 4096
  · left
    unfold CreateFile
    rw [if_neg hname, any_name_false _ _ hfresh]
    simp [hlen]
  by_cases hfree : true ∈ fs.FreeList
  · obtain ⟨i, hi, hlow⟩ := exists_lowest_free fs.FreeList hfree
    exact Or.inr ⟨i, hname, hfresh, hi, hlow,
      CreateFile_of_lowest fs name data now1 now2 i hname hfresh (by omega) hi hlow⟩
  · exact Or.inl (CreateFile_of_full fs name data now1 now2 hfree)

/-- What `DeleteFile` does when the first entry called `name` is at position `p`. -/
theorem DeleteFile_of_first_entry (fs : FileSystem) (name : GoString) (p : Nat)
    (e : DirectoryEntry) (hname : name ≠ []) (hp : fs.Directory[p]? = some e)
    (he : e.Name = name)
    (hfirst : ∀ k, k < p → ∀ e', fs.Directory[k]? = some e' → e'.Name ≠ name) :
    DeleteFile fs name =
      if 0 ≤ e.Inode ∧ e.Inode + 1 ≤ (fs.Inodes.length : Int) then
        if e.Inode < (fs.FreeList.length : Int) then
          some { fs with
            Directory := fs.Directory.eraseIdx p
            Inodes := fs.Inodes.eraseIdx e.Inode.toNat
            FreeList := fs.FreeList.set e.Inode.toNat true }
        else none
      else none := by
  have h := firstIndex_of_lowest (fun entry : DirectoryEntry => entry.Name == name)
    fs.Directory 0 p e hp (by simpa using he)
    (fun m hm y hy => by simpa using hfirst m hm y hy)
  simp only [Nat.zero_add] at h
  unfold DeleteFile
  rw [if_neg hname]
  simp only [h]
  have hne : ¬ ((p : Int) = -1) := by omega
  simp only [hne, if_false, Int.toNat_ofNat, hp, List.eraseIdx_eq_take_drop_succ]

theorem DeleteFile_cases (fs fs' : FileSystem) (name : GoString)
    (h : DeleteFile fs name = some fs') :
    fs' = fs ∨
      ∃ (p j : Nat) (e : DirectoryEntry), name ≠ [] ∧ fs.Directory[p]? = some e ∧
        e.Name = name ∧ e.Inode = (j : Int) ∧ j < fs.Inodes.length ∧ j < fs.FreeList.length ∧
        fs' = { fs with
          Directory := fs.Directory.eraseIdx p
          Inodes := fs.Inodes.eraseIdx j
          FreeList := fs.FreeList.set j true } := by
  by_cases hname : name = []
  · rw [DeleteFile_of_no_match fs name (Or.inl hname)] at h
    exact Or.inl (Option.some.inj h).symm
  by_cases hm : ∃ e ∈ fs.Directory, (fun entry : DirectoryEntry => entry.Name == name) e = true
  · obtain ⟨p, e, hp, he, hfirst⟩ := exists_lowest _ fs.Directory hm
    have he' : e.Name = name := by simpa using he
    have hfirst' : ∀ k, k < p → ∀ e', fs.Directory[k]? = some e' → e'.Name ≠ name :=
      fun k hk e' he' => by simpa using hfirst k hk e' he'
    rw [DeleteFile_of_first_entry fs name p e hname hp he' hfirst'] at h
    right
    by_cases h1 : 0 ≤ e.Inode ∧ e.Inode + 1 ≤ (fs.Inodes.length : Int)
    · rw [if_pos h1] at h
      by_cases h2 : e.Inode < (fs.FreeList.length : Int)
      · rw [if_pos h2] at h
        refine ⟨p, e.Inode.toNat, e, hname, hp, he', by omega, by omega, by omega,
          (Option.some.inj h).symm⟩
      · rw [if_neg h2] at h
        exact absurd h (by simp)
    · rw [if_neg h1] at h
      exact absurd h (by simp)
  · have hno : ∀ e ∈ fs.Directory, e.Name ≠ name := by
      intro e he hn
      exact hm ⟨e, he, by simpa using hn⟩
    rw [DeleteFile_of_no_match fs name (Or.inr hno)] at h
    exact Or.inl (Option.some.inj h).symm

theorem run_nil (fs : FileSystem) : run fs [] = some fs := rfl

theorem run_create (fs : FileSystem) (name : GoString) (data : List Byte) (now1 now2 : Time)
    (ops : List Op) :
    run fs (Op.create name data now1 now2 :: ops) = run (CreateFile fs name data now1 now2) ops :=
  rfl

theorem run_delete (fs fs' : FileSystem) (name : GoString) (ops : List Op)
    (h : DeleteFile fs name = some fs') : run fs (Op.delete name :: ops) = run fs' ops := by
  simp only [run, h]

theorem run_delete_none (fs : FileSystem) (name : GoString) (ops : List Op)
    (h : DeleteFile fs name = none) : run fs (Op.delete name :: ops) = none := by
  simp only [run, h]

theorem run_append (ops1 ops2 : List Op) (fs fs1 : FileSystem) (h : run fs ops1 = some fs1) :
    run fs (ops1 ++ ops2) = run fs1 ops2 := by
  induction ops1 generalizing fs with
  | nil =>
    simp only [run, Option.some.injEq] at h
    subst h
    rfl
  | cons op ops ih =>
    cases op with
    | create name data now1 now2 =>
      simp only [run, List.cons_append] at h ⊢
      exact ih _ h
    | delete name =>
      simp only [run, List.cons_append] at h ⊢
      cases hdel : DeleteFile fs name with
      | none => rw [hdel] at h; exact absurd h (by simp)
      | some fs2 =>
        rw [hdel] at h
        exact ih _ h

/-- An invariant of both file operations holds after every sequence of calls. -/
theorem run_invariant (P : FileSystem → Prop)
    (hc : ∀ fs name data now1 now2, P fs → P (CreateFile fs name data now1 now2))
    (hd : ∀ fs name fs', P fs → DeleteFile fs name = some fs' → P fs') :
    ∀ (ops : List Op) (fs fs' : FileSystem), P fs → run fs ops = some fs' → P fs' := by
  intro ops
  induction ops with
  | nil =>
    intro fs fs' hP h
    simp only [run, Option.some.injEq] at h
    exact h ▸ hP
  | cons op ops ih =>
    intro fs fs' hP h
    cases op with
    | create name data now1 now2 =>
      simp only [run] at h
      exact ih _ _ (hc fs name data now1 now2 hP) h
    | delete name =>
      simp only [run] at h
      cases hdel : DeleteFile fs name with
      | none => rw [hdel] at h; exact absurd h (by simp)
      | some fs1 =>
        rw [hdel] at h
        exact ih _ _ (hd fs name fs1 hP hdel) h

/-- C18 (frame of the file operations): `CreateFile`, and `DeleteFile` whenever it completes,
leave the SuperBlock and CurrentDir unchanged and keep the length of the FreeList, so a
FreeList of length `totalBlocks` keeps length `totalBlocks`. -/
theorem file_operations_frame (fs : FileSystem) (name : GoString) (data : List Byte)
    (now1 now2 : Time) :
    ((CreateFile fs name data now1 now2).SuperBlock = fs.SuperBlock ∧
      (CreateFile fs name data now1 now2).CurrentDir = fs.CurrentDir ∧
      (CreateFile fs name data now1 now2).FreeList.length = fs.FreeList.length ∧
      ((fs.FreeList.length : Int) = fs.SuperBlock.TotalBlocks →
        ((CreateFile fs name data now1 now2).FreeList.length : Int) =
          (CreateFile fs name data now1 now2).SuperBlock.TotalBlocks)) ∧
    ∀ fs', DeleteFile fs name = some fs' →
      fs'.SuperBlock = fs.SuperBlock ∧ fs'.CurrentDir = fs.CurrentDir ∧
      fs'.FreeList.length = fs.FreeList.length ∧
      ((fs.FreeList.length : Int) = fs.SuperBlock.TotalBlocks →
        (fs'.FreeList.length : Int) = fs'.SuperBlock.TotalBlocks) := by
  constructor
  · rcases CreateFile_cases fs name data now1 now2 with h | ⟨i, _, _, _, _, h⟩
    · rw [h]
      exact ⟨rfl, rfl, rfl, fun h => h⟩
    · rw [h]
      have hl : (fs.FreeList.set i false).length = fs.FreeList.length := List.length_set _ _ _
      exact ⟨rfl, rfl, hl, fun h' => by
        show (((fs.FreeList.set i false).length : Nat) : Int) = fs.SuperBlock.TotalBlocks
        rw [hl]
        exact h'⟩
  · intro fs' hdel
    rcases DeleteFile_cases fs fs' name hdel with h | ⟨p, j, e, _, _, _, _, _, _, h⟩
    · rw [h]
      exact ⟨rfl, rfl, rfl, fun h => h⟩
    · rw [h]
      have hl : (fs.FreeList.set j true).length = fs.FreeList.length := List.length_set _ _ _
      exact ⟨rfl, rfl, hl, fun h' => by
        show (((fs.FreeList.set j true).length : Nat) : Int) = fs.SuperBlock.TotalBlocks
        rw [hl]
        exact h'⟩

/-! ## Sequences of allocations -/

theorem AllocCall.apply_cases (c : AllocCall) (fs : FileSystem) :
    ((c.apply fs).1 = -1 ∧ (c.apply fs).2 = fs) ∨
      ∃ i : Nat, fs.FreeList[i]? = some true ∧ (∀ k, k < i → fs.FreeList[k]? = some false) ∧
        (c.apply fs).1 = (i : Int) ∧ (c.apply fs).2.FreeList = fs.FreeList.set i false := by
  by_cases hfree : true ∈ fs.FreeList
  · right
    obtain ⟨i, hi, hlow⟩ := exists_lowest_free fs.FreeList hfree
    refine ⟨i, hi, hlow, ?_⟩
    cases c with
    | find =>
      show (findFreeInode fs).1 = (i : Int) ∧ (findFreeInode fs).2.FreeList = _
      rw [findFreeInode_of_lowest fs i hi hlow]
      exact ⟨rfl, rfl⟩
    | allocate data permissions now1 now2 =>
      show (allocateInode fs data permissions now1 now2).1 = (i : Int) ∧
        (allocateInode fs data permissions now1 now2).2.FreeList = _
      rw [allocateInode_of_lowest fs data permissions now1 now2 i hi hlow]
      exact ⟨rfl, rfl⟩
  · left
    have hf := findFreeInode_of_full fs hfree
    cases c with
    | find =>
      show (findFreeInode fs).1 = -1 ∧ (findFreeInode fs).2 = fs
      rw [hf]
      exact ⟨rfl, rfl⟩
    | allocate data permissions now1 now2 =>
      show (allocateInode fs data permissions now1 now2).1 = -1 ∧
        (allocateInode fs data permissions now1 now2).2 = fs
      simp [allocateInode, hf]

theorem getElem?_set_false_of_not_true (l : List Bool) (i m : Nat)
    (h : l[m]? ≠ some true) : (l.set i false)[m]? ≠ some true := by
  rw [List.getElem?_set]
  split
  · split <;> simp
  · exact h

theorem getElem?_set_false_of_false (l : List Bool) (i m : Nat)
    (h : l[m]? = some false) : (l.set i false)[m]? = some false := by
  have hm : m < l.length := (List.getElem?_eq_some_iff.1 h).1
  rw [List.getElem?_set]
  split
  · rename_i heq
    subst heq
    simp [hm]
  · exact h

/-- Allocations never free a slot. -/
theorem allocAll_keeps_false (calls : List AllocCall) (fs : FileSystem) (k : Nat)
    (h : fs.FreeList[k]? = some false) : (allocAll fs calls).2.FreeList[k]? = some false := by
  induction calls generalizing fs with
  | nil => exact h
  | cons c cs ih =>
    simp only [allocAll]
    apply ih
    rcases AllocCall.apply_cases c fs with ⟨_, h2⟩ | ⟨i, _, _, _, h2⟩
    · rw [h2]; exact h
    · rw [h2]; exact getElem?_set_false_of_false _ _ _ h

/-- When no slot up to `k` is free, every index returned by successful allocations is
above `k`. -/
theorem allocAll_gt (calls : List AllocCall) (fs : FileSystem) (k : Nat)
    (hk : ∀ m, m ≤ k → fs.FreeList[m]? ≠ some true)
    (hs : ∀ x ∈ (allocAll fs calls).1, x ≠ -1) :
    ∀ x ∈ (allocAll fs calls).1, (k : Int) < x := by
  induction calls generalizing fs with
  | nil => intro x hx; simp [allocAll] at hx
  | cons c cs ih =>
    simp only [allocAll, List.mem_cons, forall_eq_or_imp] at hs ⊢
    rcases AllocCall.apply_cases c fs with ⟨h1, _⟩ | ⟨i, hi, _, h1, h2⟩
    · exact absurd h1 hs.1
    · constructor
      · rw [h1]
        have : ¬ i ≤ k := fun hle => hk i hle hi
        omega
      · apply ih _ _ hs.2
        intro m hm
        rw [h2]
        exact getElem?_set_false_of_not_true _ _ _ (hk m hm)

/-- C11 (allocation uniqueness): when `N` allocations (`findFreeInode` or `allocateInode`)
performed one after another all succeed, each returned index is strictly greater than the
previous ones, so the indices are pairwise distinct, and in the final state the FreeList
entry at each returned index is `false`. -/
theorem allocation_uniqueness (fs : FileSystem) (calls : List AllocCall)
    (hs : ∀ x ∈ (allocAll fs calls).1, x ≠ -1) :
    (allocAll fs calls).1.length = calls.length ∧
      (allocAll fs calls).1.Pairwise (fun a b => a < b) ∧
      (allocAll fs calls).1.Nodup ∧
      ∀ x ∈ (allocAll fs calls).1,
        ∃ i : Nat, x = (i : Int) ∧ (allocAll fs calls).2.FreeList[i]? = some false := by
  have key : ∀ (calls : List AllocCall) (fs : FileSystem),
      (∀ x ∈ (allocAll fs calls).1, x ≠ -1) →
      (allocAll fs calls).1.length = calls.length ∧
      (allocAll fs calls).1.Pairwise (fun a b => a < b) ∧
      ∀ x ∈ (allocAll fs calls).1,
        ∃ i : Nat, x = (i : Int) ∧ (allocAll fs calls).2.FreeList[i]? = some false := by
    intro calls
    induction calls with
    | nil =>
      intro fs _
      exact ⟨rfl, List.Pairwise.nil, fun x hx => by simp [allocAll] at hx⟩
    | cons c cs ih =>
      intro fs hs
      have hs' := hs
      simp only [allocAll, List.mem_cons, forall_eq_or_imp] at hs'
      obtain ⟨ihl, ihp, ihf⟩ := ih (c.apply fs).2 hs'.2
      rcases AllocCall.apply_cases c fs with ⟨h1, _⟩ | ⟨i, hi, hlow, h1, h2⟩
      · exact absurd h1 hs'.1
      · have hlen : i < fs.FreeList.length := (List.getElem?_eq_some_iff.1 hi).1
        have hnot : ∀ m, m ≤ i → (c.apply fs).2.FreeList[m]? ≠ some true := by
          intro m hm
          rw [h2, List.getElem?_set]
          by_cases hmi : i = m
          · subst hmi
            simp [hlen]
          · simp only [hmi, if_false]
            rw [hlow m (by omega)]
            simp
        have hgt := allocAll_gt cs (c.apply fs).2 i hnot hs'.2
        simp only [allocAll, List.length_cons, List.pairwise_cons, List.mem_cons,
          forall_eq_or_imp]
        refine ⟨by rw [ihl], ⟨?_, ihp⟩, ?_, ihf⟩
        · intro x hx
          rw [h1]
          exact hgt x hx
        · refine ⟨i, h1, ?_⟩
          apply allocAll_keeps_false
          rw [h2]
          simp [hlen]
  obtain ⟨h1, h2, h3⟩ := key calls fs hs
  refine ⟨h1, h2, ?_, h3⟩
  exact h2.imp (fun h => ne_of_lt h)

/-! ## Invariants of the reachable states -/

/-- C14 (name invariant of the flat namespace): in every reachable state every directory
entry has a non-empty name and no two directory entries have the same name. -/
theorem names_nonempty_unique (fs : FileSystem) (h : Reachable fs) :
    (∀ e ∈ fs.Directory, e.Name ≠ []) ∧
      fs.Directory.Pairwise (fun a b => a.Name ≠ b.Name) := by
  obtain ⟨now1, now2, ops, hrun⟩ := h
  refine run_invariant
    (fun fs => (∀ e ∈ fs.Directory, e.Name ≠ []) ∧
      fs.Directory.Pairwise (fun a b => a.Name ≠ b.Name))
    ?_ ?_ ops _ fs ?_ hrun
  · intro fs name data n1 n2 ⟨h1, h2⟩
    rcases CreateFile_cases fs name data n1 n2 with h | ⟨i, hname, hfresh, _, _, h⟩
    · rw [h]; exact ⟨h1, h2⟩
    · rw [h]
      constructor
      · intro e he
        rcases List.mem_append.1 he with he | he
        · exact h1 e he
        · rw [List.mem_singleton.1 he]; exact hname
      · refine List.pairwise_append.2 ⟨h2, List.pairwise_singleton _ _, ?_⟩
        intro a ha b hb
        rw [List.mem_singleton.1 hb]
        exact hfresh a ha
  · intro fs name fs' ⟨h1, h2⟩ hdel
    rcases DeleteFile_cases fs fs' name hdel with h | ⟨p, j, e, _, _, _, _, _, _, h⟩
    · rw [h]; exact ⟨h1, h2⟩
    · rw [h]
      exact ⟨fun e he => h1 e (List.mem_of_mem_eraseIdx he),
        h2.sublist (List.eraseIdx_sublist _ _)⟩
  · rw [CreateFileSystem_eq]
    constructor
    · intro e he
      rw [List.mem_singleton.1 he]
      decide
    · exact List.pairwise_singleton _ _

theorem count_false_set_false (l : List Bool) (i : Nat) (h : l[i]? = some true) :
    (l.set i false).count false = l.count false + 1 := by
  induction l generalizing i with
  | nil => simp at h
  | cons a l ih =>
    cases i with
    | zero =>
      simp only [List.getElem?_cons_zero, Option.some.injEq] at h
      subst h
      simp
    | succ i =>
      simp only [List.getElem?_cons_succ] at h
      simp only [List.set_cons_succ, List.count_cons, ih i h]
      omega

theorem count_false_set_true (l : List Bool) (i : Nat) (h : l[i]? = some false) :
    (l.set i true).count false + 1 = l.count false := by
  induction l generalizing i with
  | nil => simp at h
  | cons a l ih =>
    cases i with
    | zero =>
      simp only [List.getElem?_cons_zero, Option.some.injEq] at h
      subst h
      simp
    | succ i =>
      simp only [List.getElem?_cons_succ] at h
      simp only [List.set_cons_succ, List.count_cons, ← ih i h]
      omega

theorem eraseIdx_inode_ne (dir : List DirectoryEntry) (p : Nat) (e : DirectoryEntry)
    (hd : dir.Pairwise (fun a b => a.Inode ≠ b.Inode)) (hp : dir[p]? = some e) :
    ∀ e' ∈ dir.eraseIdx p, e'.Inode ≠ e.Inode := by
  induction dir generalizing p with
  | nil => simp at hp
  | cons a dir ih =>
    rw [List.pairwise_cons] at hd
    cases p with
    | zero =>
      simp only [List.getElem?_cons_zero, Option.some.injEq] at hp
      subst hp
      intro e' he'
      exact fun heq => hd.1 e' he' heq.symm
    | succ p =>
      simp only [List.getElem?_cons_succ] at hp
      intro e' he'
      rw [List.eraseIdx_cons_succ, List.mem_cons] at he'
      rcases he' with rfl | he'
      · exact hd.1 e (List.getElem?_mem hp)
      · exact ih p hd.2 hp e' he'

theorem mem_eraseIdx_of_inode_ne (dir : List DirectoryEntry) (p : Nat) (e e' : DirectoryEntry)
    (hp : dir[p]? = some e) (he' : e' ∈ dir) (hne : e'.Inode ≠ e.Inode) :
    e' ∈ dir.eraseIdx p := by
  rw [List.mem_eraseIdx_iff_getElem?]
  obtain ⟨k, hk⟩ := List.getElem?_of_mem he'
  refine ⟨k, ?_, hk⟩
  intro hkp
  subst hkp
  rw [hk] at hp
  exact hne (by rw [Option.some.inj hp])

/-- The relation between Directory and FreeList that both file operations keep. -/
theorem consistency_invariant (fs : FileSystem) (h : Reachable fs) :
    fs.Directory.Pairwise (fun a b => a.Inode ≠ b.Inode) ∧
      (∀ i : Nat, fs.FreeList[i]? = some false ↔ ∃ e ∈ fs.Directory, e.Inode = (i : Int)) ∧
      (∀ e ∈ fs.Directory, 0 ≤ e.Inode) ∧
      fs.FreeList.count false = fs.Directory.length := by
  obtain ⟨now1, now2, ops, hrun⟩ := h
  refine run_invariant
    (fun fs => fs.Directory.Pairwise (fun a b => a.Inode ≠ b.Inode) ∧
      (∀ i : Nat, fs.FreeList[i]? = some false ↔ ∃ e ∈ fs.Directory, e.Inode = (i : Int)) ∧
      (∀ e ∈ fs.Directory, 0 ≤ e.Inode) ∧
      fs.FreeList.count false = fs.Directory.length)
    ?_ ?_ ops _ fs ?_ hrun
  · intro fs name data n1 n2 ⟨h1, h2, h3, h4⟩
    rcases CreateFile_cases fs name data n1 n2 with h | ⟨i, _, _, hi, _, h⟩
    · rw [h]; exact ⟨h1, h2, h3, h4⟩
    · have hD : (CreateFile fs name data n1 n2).Directory = fs.Directory ++
          [{ Name := name, Inode := (i : Int), Permission := DEFAULT_FILE_PERMISSION }] := by
        rw [h]
      have hF : (CreateFile fs name data n1 n2).FreeList = fs.FreeList.set i false := by
        rw [h]; rfl
      have hlen : i < fs.FreeList.length := (List.getElem?_eq_some_iff.1 hi).1
      have hnew : ∀ a ∈ fs.Directory, a.Inode ≠ (i : Int) := by
        intro a ha heq
        have := (h2 i).2 ⟨a, ha, heq⟩
        rw [hi] at this
        simp at this
      refine ⟨?_, ?_, ?_, ?_⟩
      · rw [hD]
        refine List.pairwise_append.2 ⟨h1, List.pairwise_singleton _ _, ?_⟩
        intro a ha b hb
        rw [List.mem_singleton.1 hb]
        exact hnew a ha
      · intro k
        rw [hD, hF]
        by_cases hk : k = i
        · subst hk
          constructor
          · intro _
            exact ⟨_, List.mem_append_right _ (List.mem_singleton_self _), rfl⟩
          · intro _
            simp [hlen]
        · rw [getElem?_set_false_ne _ _ _ hk, h2 k]
          constructor
          · rintro ⟨e, he, heq⟩
            exact ⟨e, List.mem_append_left _ he, heq⟩
          · rintro ⟨e, he, heq⟩
            rcases List.mem_append.1 he with he | he
            · exact ⟨e, he, heq⟩
            · rw [List.mem_singleton.1 he] at heq
              exact absurd (Int.ofNat_inj.1 heq).symm hk
      · intro e he
        rw [hD] at he
        rcases List.mem_append.1 he with he | he
        · exact h3 e he
        · rw [List.mem_singleton.1 he]
          exact Int.ofNat_nonneg i
      · rw [hD, hF, count_false_set_false _ _ hi, h4, List.length_append,
          List.length_singleton]
  · intro fs name fs' ⟨h1, h2, h3, h4⟩ hdel
    rcases DeleteFile_cases fs fs' name hdel with h | ⟨p, j, e, _, hp, _, hj, _, hjF, h⟩
    · rw [h]; exact ⟨h1, h2, h3, h4⟩
    · rw [h]
      have hmem : e ∈ fs.Directory := List.getElem?_mem hp
      have hfalse : fs.FreeList[j]? = some false := (h2 j).2 ⟨e, hmem, hj⟩
      have hplen : p < fs.Directory.length := (List.getElem?_eq_some_iff.1 hp).1
      refine ⟨h1.sublist (List.eraseIdx_sublist _ _), ?_,
        fun e' he' => h3 e' (List.mem_of_mem_eraseIdx he'), ?_⟩
      · intro k
        show (fs.FreeList.set j true)[k]? = some false ↔
          ∃ e' ∈ fs.Directory.eraseIdx p, e'.Inode = (k : Int)
        by_cases hk : k = j
        · subst hk
          constructor
          · intro hk'
            rw [List.getElem?_set_self hjF] at hk'
            simp at hk'
          · rintro ⟨e', he', heq⟩
            exact absurd (heq.trans hj.symm) (eraseIdx_inode_ne _ _ _ h1 hp e' he')
        · rw [getElem?_set_false_ne _ _ _ hk, h2 k]
          constructor
          · rintro ⟨e', he', heq⟩
            refine ⟨e', mem_eraseIdx_of_inode_ne _ p e e' hp he' ?_, heq⟩
            rw [heq, hj]
            exact fun hkj => hk (Int.ofNat_inj.1 hkj)
          · rintro ⟨e', he', heq⟩
            exact ⟨e', List.mem_of_mem_eraseIdx he', heq⟩
      · show (fs.FreeList.set j true).count false = (fs.Directory.eraseIdx p).length
        have hc := count_false_set_true _ _ hfalse
        rw [List.length_eraseIdx_of_lt hplen]
        omega
  · rw [CreateFileSystem_eq]
    refine ⟨List.pairwise_singleton _ _, ?_, ?_, ?_⟩
    · intro k
      show (false :: List.replicate 999 true)[k]? = some false ↔
        ∃ e ∈ [({ Name := str "/", Inode := 0, Permission := str "rwxr-xr-x" } :
          DirectoryEntry)], e.Inode = (k : Int)
      cases k with
      | zero =>
        exact ⟨fun _ => ⟨_, List.mem_singleton_self _, rfl⟩, fun _ => List.getElem?_cons_zero⟩
      | succ k =>
        rw [List.getElem?_cons_succ, List.getElem?_replicate]
        constructor
        · intro h
          split at h <;> simp at h
        · rintro ⟨e, he, heq⟩
          rw [List.mem_singleton.1 he] at heq
          have : (0 : Int) = ((k + 1 : Nat) : Int) := heq
          omega
    · intro e he
      rw [List.mem_singleton.1 he]
    · show (false :: List.replicate 999 true).count false = 1
      rw [List.count_cons_self, List.count_replicate]
      rfl

/-- C19 (Directory / FreeList consistency): in every reachable state the inode indices
stored in the directory entries are pairwise distinct, an index `i` has `FreeList[i] = false`
exactly when some directory entry stores inode index `i` (no stored index is negative), and
the number of `false` FreeList entries equals the number of directory entries. -/
theorem directory_freelist_consistency (fs : FileSystem) (h : Reachable fs) :
    fs.Directory.Pairwise (fun a b => a.Inode ≠ b.Inode) ∧
      (∀ i : Nat, fs.FreeList[i]? = some false ↔ ∃ e ∈ fs.Directory, e.Inode = (i : Int)) ∧
      (∀ e ∈ fs.Directory, 0 ≤ e.Inode) ∧
      fs.FreeList.count false = fs.Directory.length :=
  consistency_invariant fs h

/-! ## Root entry and creation order -/

theorem run_keeps_root (root : DirectoryEntry) (ops : List Op) (fs fs' : FileSystem)
    (hops : ∀ op ∈ ops, op ≠ Op.delete root.Name) (hroot : fs.Directory.head? = some root)
    (h : run fs ops = some fs') : fs'.Directory.head? = some root := by
  induction ops generalizing fs with
  | nil =>
    simp only [run, Option.some.injEq] at h
    subst h
    exact hroot
  | cons op ops ih =>
    have hops' : ∀ op ∈ ops, op ≠ Op.delete root.Name :=
      fun o ho => hops o (List.mem_cons_of_mem _ ho)
    cases op with
    | create name data now1 now2 =>
      simp only [run] at h
      refine ih _ hops' ?_ h
      rcases CreateFile_cases fs name data now1 now2 with hc | ⟨i, _, _, _, _, hc⟩
      · rw [hc]; exact hroot
      · rw [hc]
        show (fs.Directory ++ [_]).head? = some root
        rw [List.head?_append, hroot]
        rfl
    | delete name =>
      simp only [run] at h
      cases hdel : DeleteFile fs name with
      | none => rw [hdel] at h; exact absurd h (by simp)
      | some fs1 =>
        rw [hdel] at h
        refine ih _ hops' ?_ h
        rcases DeleteFile_cases fs fs1 name hdel with hd | ⟨p, j, e, _, hp, he, _, _, _, hd⟩
        · rw [hd]; exact hroot
        · rw [hd]
          show (fs.Directory.eraseIdx p).head? = some root
          have hne : name ≠ root.Name := by
            intro heq
            exact hops (Op.delete name) (List.mem_cons_self _ _) (by rw [heq])
          cases hdir : fs.Directory with
          | nil => rw [hdir] at hroot; simp at hroot
          | cons a rest =>
            rw [hdir] at hroot hp
            simp only [List.head?_cons, Option.some.injEq] at hroot
            subst hroot
            cases p with
            | zero =>
              simp only [List.getElem?_cons_zero, Option.some.injEq] at hp
              subst hp
              exact absurd he.symm hne
            | succ p => rfl

/-- The root entry `CreateFileSystem` appends. -/
theorem root_deleted_eq (now1 now2 : Time) :
    DeleteFile (CreateFileSystem now1 now2) (str "/") =
      some { SuperBlock := { TotalBlocks := 1000, BlockSize := 4096 }
             FreeList := true :: List.replicate 999 true
             Directory := []
             Inodes := []
             CurrentDir := str "/" } := by
  rw [CreateFileSystem_eq]
  rw [DeleteFile_of_first _ (str "/") 0 0
    { Name := str "/", Inode := 0, Permission := str "rwxr-xr-x" }]
  · rfl
  · decide
  · rfl
  · rfl
  · intro k hk
    omega
  · rfl
  · exact Nat.succ_pos _
  · exact Nat.succ_pos _

theorem run_delete_root (now1 now2 : Time) :
    run (CreateFileSystem now1 now2) [Op.delete (str "/")] =
      some { SuperBlock := { TotalBlocks := 1000, BlockSize := 4096 }
             FreeList := true :: List.replicate 999 true
             Directory := []
             Inodes := []
             CurrentDir := str "/" } := by
  rw [run_delete _ _ _ _ (root_deleted_eq now1 now2), run_nil]

/-- C15, as stated, fails: `DeleteFile("/")` on the fresh aggregate completes and leaves an
empty Directory, so a reachable state has no root entry. -/
theorem root_first_counterexample :
    ∃ fs, run (CreateFileSystem sampleNow sampleNow) [Op.delete (str "/")] = some fs ∧
      Reachable fs ∧ fs.Directory = [] :=
  ⟨_, run_delete_root sampleNow sampleNow,
    ⟨sampleNow, sampleNow, _, run_delete_root sampleNow sampleNow⟩, rfl⟩

theorem map_eraseIdx {α β : Type} (f : α → β) (l : List α) (p : Nat) :
    (l.eraseIdx p).map f = (l.map f).eraseIdx p := by
  induction l generalizing p with
  | nil => rfl
  | cons a l ih =>
    cases p with
    | zero => rfl
    | succ p => simp only [List.eraseIdx_cons_succ, List.map_cons, ih]

/-- The position `DeleteFile` removes is the one its scan returns. -/
theorem DeleteFile_cases_index (fs fs' : FileSystem) (name : GoString)
    (h : DeleteFile fs name = some fs') :
    fs' = fs ∨
      ∃ p : Nat, p < fs.Directory.length ∧
        firstIndex (fun entry : DirectoryEntry => entry.Name == name) fs.Directory 0 = (p : Int) ∧
        fs'.Directory = fs.Directory.eraseIdx p := by
  by_cases hname : name = []
  · rw [DeleteFile_of_no_match fs name (Or.inl hname)] at h
    exact Or.inl (Option.some.inj h).symm
  by_cases hm : ∃ e ∈ fs.Directory, (fun entry : DirectoryEntry => entry.Name == name) e = true
  · obtain ⟨p, e, hp, he, hfirst⟩ := exists_lowest _ fs.Directory hm
    have he' : e.Name = name := by simpa using he
    have hfirst' : ∀ k, k < p → ∀ e', fs.Directory[k]? = some e' → e'.Name ≠ name :=
      fun k hk e' he' => by simpa using hfirst k hk e' he'
    have hidx := firstIndex_of_lowest (fun entry : DirectoryEntry => entry.Name == name)
      fs.Directory 0 p e hp he hfirst
    simp only [Nat.zero_add] at hidx
    rw [DeleteFile_of_first_entry fs name p e hname hp he' hfirst'] at h
    right
    refine ⟨p, (List.getElem?_eq_some_iff.1 hp).1, hidx, ?_⟩
    by_cases h1 : 0 ≤ e.Inode ∧ e.Inode + 1 ≤ (fs.Inodes.length : Int)
    · rw [if_pos h1] at h
      by_cases h2 : e.Inode < (fs.FreeList.length : Int)
      · rw [if_pos h2] at h
        rw [← Option.some.inj h]
      · rw [if_neg h2] at h
        exact absurd h (by simp)
    · rw [if_neg h1] at h
      exact absurd h (by simp)
  · have hno : ∀ e ∈ fs.Directory, e.Name ≠ name := by
      intro e he hn
      exact hm ⟨e, he, by simpa using hn⟩
    rw [DeleteFile_of_no_match fs name (Or.inr hno)] at h
    exact Or.inl (Option.some.inj h).symm

/-- The log of `stampedRun` follows the Directory: started after the calls `pre` with a log
that labels the Directory by strictly increasing numbers of calls that appended the entries,
it completes whenever `run` does, in the same state, with such a log. -/
theorem stampedRun_spec (now1 now2 : Time) (all : List Op) :
    ∀ (ops pre : List Op) (fs fs' : FileSystem) (log : List (DirectoryEntry × Nat)),
      all = pre ++ ops →
      run (CreateFileSystem now1 now2) pre = some fs →
      log.map Prod.fst = fs.Directory →
      (log.map Prod.snd).Pairwise (fun a b => a < b) →
      (∀ x ∈ log, x.2 ≤ pre.length) →
      (∀ x ∈ log, AppendedBy now1 now2 all x.1 x.2) →
      run fs ops = some fs' →
      ∃ log', stampedRun fs log (pre.length + 1) ops = some (fs', log') ∧
        log'.map Prod.fst = fs'.Directory ∧
        (log'.map Prod.snd).Pairwise (fun a b => a < b) ∧
        ∀ x ∈ log', AppendedBy now1 now2 all x.1 x.2 := by
  intro ops
  induction ops with
  | nil =>
    intro pre fs fs' log _ _ hfst hpw _ hby hrun
    rw [run_nil] at hrun
    have hfs : fs = fs' := Option.some.inj hrun
    subst hfs
    exact ⟨log, rfl, hfst, hpw, hby⟩
  | cons op ops ih =>
    intro pre fs fs' log hall hpre hfst hpw hle hby hrun
    have hall' : all = (pre ++ [op]) ++ ops := by
      rw [hall, List.append_assoc, List.singleton_append]
    have hlen' : (pre ++ [op]).length = pre.length + 1 := by
      rw [List.length_append, List.length_singleton]
    have htake : all.take pre.length = pre := by
      rw [hall, List.take_left']
      rfl
    have hget : all[pre.length]? = some op := by
      rw [hall, List.getElem?_append_right (Nat.le_refl _), Nat.sub_self]
      exact List.getElem?_cons_zero
    cases op with
    | create name data n1 n2 =>
      rw [run_create] at hrun
      have hpre' : run (CreateFileSystem now1 now2)
          (pre ++ [Op.create name data n1 n2]) = some (CreateFile fs name data n1 n2) := by
        rw [run_append _ _ _ _ hpre, run_create, run_nil]
      have hstep : stampedRun fs log (pre.length + 1) (Op.create name data n1 n2 :: ops) =
          stampedRun (CreateFile fs name data n1 n2)
            (log ++ ((CreateFile fs name data n1 n2).Directory.drop fs.Directory.length).map
              (fun e => (e, pre.length + 1))) ((pre ++ [Op.create name data n1 n2]).length + 1)
            ops := by
        rw [hlen']
        rfl
      rw [hstep]
      rcases CreateFile_cases fs name data n1 n2 with hc | ⟨i, _, _, _, _, hc⟩
      · have hdrop : (CreateFile fs name data n1 n2).Directory.drop fs.Directory.length = [] := by
          rw [hc]
          exact List.drop_eq_nil_of_le (Nat.le_refl _)
        rw [hdrop, List.map_nil, List.append_nil]
        refine ih _ _ _ log hall' hpre' ?_ hpw ?_ hby hrun
        · rw [hc]; exact hfst
        · intro x hx
          rw [hlen']
          exact Nat.le_succ_of_le (hle x hx)
      · have hD : (CreateFile fs name data n1 n2).Directory = fs.Directory ++
            [{ Name := name, Inode := (i : Int), Permission := DEFAULT_FILE_PERMISSION }] := by
          rw [hc]
        have hdrop : (CreateFile fs name data n1 n2).Directory.drop fs.Directory.length =
            [{ Name := name, Inode := (i : Int), Permission := DEFAULT_FILE_PERMISSION }] := by
          rw [hD, List.drop_left]
        rw [hdrop, List.map_singleton]
        refine ih _ _ _ _ hall' hpre' ?_ ?_ ?_ ?_ hrun
        · rw [List.map_append, hfst, hD]
          rfl
        · rw [List.map_append]
          refine List.pairwise_append.2 ⟨hpw, List.pairwise_singleton _ _, ?_⟩
          intro a ha b hb
          obtain ⟨x, hx, hxa⟩ := List.mem_map.1 ha
          have hb' : b = pre.length + 1 := by simpa using hb
          have := hle x hx
          omega
        · intro x hx
          rw [hlen']
          rcases List.mem_append.1 hx with hx | hx
          · exact Nat.le_succ_of_le (hle x hx)
          · rw [List.mem_singleton.1 hx]
        · intro x hx
          rcases List.mem_append.1 hx with hx | hx
          · exact hby x hx
          · rw [List.mem_singleton.1 hx]
            exact ⟨fs, name, data, n1, n2, by rw [htake]; exact hpre, hget, hD⟩
    | delete name =>
      cases hdel : DeleteFile fs name with
      | none =>
        rw [run_delete_none _ _ _ hdel] at hrun
        exact absurd hrun (by simp)
      | some fs1 =>
        rw [run_delete _ _ _ _ hdel] at hrun
        have hpre' : run (CreateFileSystem now1 now2) (pre ++ [Op.delete name]) = some fs1 := by
          rw [run_append _ _ _ _ hpre, run_delete _ _ _ _ hdel, run_nil]
        have hstep : stampedRun fs log (pre.length + 1) (Op.delete name :: ops) =
            stampedRun fs1
              (if fs1.Directory.length < fs.Directory.length then
                log.eraseIdx
                  (firstIndex (fun entry : DirectoryEntry => entry.Name == name)
                    fs.Directory 0).toNat
               else log) ((pre ++ [Op.delete name]).length + 1) ops := by
          rw [hlen']
          simp only [stampedRun, hdel]
        rw [hstep]
        have hle' : ∀ x ∈ log, x.2 ≤ (pre ++ [Op.delete name]).length := by
          intro x hx
          rw [hlen']
          exact Nat.le_succ_of_le (hle x hx)
        rcases DeleteFile_cases_index fs fs1 name hdel with hd | ⟨p, hp, hidx, hd⟩
        · have hnot : ¬ fs1.Directory.length < fs.Directory.length := by
            rw [hd]
            exact Nat.lt_irrefl _
          rw [if_neg hnot]
          refine ih _ _ _ log hall' hpre' ?_ hpw hle' hby hrun
          rw [hd]; exact hfst
        · have hlt : fs1.Directory.length < fs.Directory.length := by
            rw [hd, List.length_eraseIdx_of_lt hp]
            omega
          rw [if_pos hlt, hidx, Int.toNat_ofNat]
          refine ih _ _ _ _ hall' hpre' ?_ ?_ ?_ ?_ hrun
          · rw [map_eraseIdx, hfst, hd]
          · rw [map_eraseIdx]
            exact hpw.sublist (List.eraseIdx_sublist _ _)
          · intro x hx
            exact hle' x (List.mem_of_mem_eraseIdx hx)
          · intro x hx
            exact hby x (List.mem_of_mem_eraseIdx hx)

/-- C15, amended: in every state reached from the aggregate of `CreateFileSystem` through a
finite sequence of `CreateFile` and `DeleteFile` calls, the directory entries appear in the
order in which they were created: the log of the run pairs every entry of the Directory, in
Directory order, with the number of the call that appended it (0 for `CreateFileSystem`), and
these numbers increase strictly along the Directory; and when no call of the sequence is
`DeleteFile("/")`, the Directory is non-empty and its first entry is the root entry named
`"/"`. -/
theorem root_first_unless_deleted (now1 now2 : Time) (ops : List Op) (fs : FileSystem)
    (h : run (CreateFileSystem now1 now2) ops = some fs) :
    (∃ log, stampedRun (CreateFileSystem now1 now2) (freshLog now1 now2) 1 ops = some (fs, log) ∧
        log.map Prod.fst = fs.Directory ∧
        (log.map Prod.snd).Pairwise (fun a b => a < b) ∧
        ∀ x ∈ log, AppendedBy now1 now2 ops x.1 x.2) ∧
      ((∀ op ∈ ops, op ≠ Op.delete (str "/")) →
        fs.Directory ≠ [] ∧
        fs.Directory.head? =
          some { Name := str "/", Inode := 0, Permission := str "rwxr-xr-x" }) := by
  constructor
  · have hlog : freshLog now1 now2 =
        [({ Name := str "/", Inode := 0, Permission := str "rwxr-xr-x" }, 0)] := by
      unfold freshLog
      rw [CreateFileSystem_eq]
      rfl
    refine stampedRun_spec now1 now2 ops ops [] (CreateFileSystem now1 now2) fs
      (freshLog now1 now2) rfl (run_nil _) ?_ ?_ ?_ ?_ h
    · unfold freshLog
      rw [List.map_map]
      exact List.map_id _
    · rw [hlog]
      exact List.pairwise_singleton _ _
    · intro x hx
      rw [hlog, List.mem_singleton] at hx
      rw [hx]
      exact Nat.le_refl _
    · intro x hx
      unfold freshLog at hx
      obtain ⟨e, he, hxe⟩ := List.mem_map.1 hx
      rw [← hxe]
      exact he
  · intro hops
    have hroot := run_keeps_root
      { Name := str "/", Inode := 0, Permission := str "rwxr-xr-x" } ops _ fs hops
      (by rw [CreateFileSystem_eq]; rfl) h
    refine ⟨?_, hroot⟩
    intro hnil
    rw [hnil] at hroot
    simp at hroot

/-! ## The deletion defect on reachable states -/

theorem scenario_afterDelete (n1 n2 n3 n4 n5 n6 : Time) :
    run (CreateFileSystem n1 n2)
        [Op.create (str "t1.txt") (str "hi") n3 n4, Op.create (str "t2.txt") (str "yo") n5 n6,
         Op.delete (str "t1.txt")] = some (afterDelete n1 n2 n5 n6) := by
  have hdel : DeleteFile
      (CreateFile (CreateFile (CreateFileSystem n1 n2) (str "t1.txt") (str "hi") n3 n4)
        (str "t2.txt") (str "yo") n5 n6) (str "t1.txt") = some (afterDelete n1 n2 n5 n6) := by
    rw [scenario_created]
    rw [DeleteFile_of_first _ (str "t1.txt") 1 1
      { Name := str "t1.txt", Inode := 1, Permission := str "rw-r--r--" }]
    · rfl
    · decide
    · rfl
    · rfl
    · intro k hk e' he'
      have hk0 : k = 0 := by omega
      subst hk0
      simp only [List.getElem?_cons_zero, Option.some.injEq] at he'
      subst he'
      decide
    · rfl
    · show 1 < 3
      decide
    · exact Nat.succ_lt_succ (Nat.succ_pos _)
  rw [run_create, run_create, run_delete _ _ _ _ hdel, run_nil]

theorem afterDelete_reachable (n1 n2 n5 n6 : Time) : Reachable (afterDelete n1 n2 n5 n6) :=
  ⟨n1, n2, _, scenario_afterDelete n1 n2 n5 n6 n5 n6⟩

theorem afterDelete_delete_t2 (n1 n2 n5 n6 : Time) :
    DeleteFile (afterDelete n1 n2 n5 n6) (str "t2.txt") = none := by
  rw [DeleteFile_of_first_entry (afterDelete n1 n2 n5 n6) (str "t2.txt") 1
    { Name := str "t2.txt", Inode := 2, Permission := str "rw-r--r--" }]
  · rfl
  · decide
  · rfl
  · rfl
  · intro k hk e' he'
    have hk0 : k = 0 := by omega
    subst hk0
    have : e' = { Name := str "/", Inode := 0, Permission := str "rwxr-xr-x" } :=
      (Option.some.inj he').symm
    subst this
    decide

theorem scenario_afterRecreate (n1 n2 n5 n6 n7 n8 n9 n10 : Time) :
    run (afterDelete n1 n2 n5 n6)
        [Op.create (str "t3.txt") (str "a") n7 n8, Op.create (str "t4.txt") (str "b") n9 n10] =
      some (afterRecreate n1 n2 n7 n8 n9 n10) := by
  have h1 : CreateFile (afterDelete n1 n2 n5 n6) (str "t3.txt") (str "a") n7 n8 =
      { SuperBlock := { TotalBlocks := 1000, BlockSize := 4096 }
        FreeList := false :: false :: false :: true :: List.replicate 996 true
        Directory :=
          [{ Name := str "/", Inode := 0, Permission := str "rwxr-xr-x" },
           { Name := str "t2.txt", Inode := 2, Permission := str "rw-r--r--" },
           { Name := str "t3.txt", Inode := 1, Permission := str "rw-r--r--" }]
        Inodes :=
          [{ Data := List.replicate 4096 0, Used := true, Permission := str "rwxr-xr-x",
             CreatedAt := n1, UpdatedAt := n2 },
           { Data := str "a", Used := true, Permission := str "rw-r--r--",
             CreatedAt := n7, UpdatedAt := n8 }]
        CurrentDir := str "/" } := by
    unfold afterDelete
    rw [List.replicate_succ true 996]
    rw [CreateFile_of_lowest _ _ _ n7 n8 1]
    · rfl
    · decide
    · intro e he
      rcases List.mem_cons.1 he with rfl | he
      · decide
      · rw [List.mem_singleton.1 he]
        decide
    · decide
    · rfl
    · intro k hk
      have : k = 0 := by omega
      subst this
      rfl
  have h2 : CreateFile (CreateFile (afterDelete n1 n2 n5 n6) (str "t3.txt") (str "a") n7 n8)
      (str "t4.txt") (str "b") n9 n10 = afterRecreate n1 n2 n7 n8 n9 n10 := by
    rw [h1, CreateFile_of_lowest _ _ _ n9 n10 3]
    · rfl
    · decide
    · intro e he
      rcases List.mem_cons.1 he with rfl | he
      · decide
      rcases List.mem_cons.1 he with rfl | he
      · decide
      · rw [List.mem_singleton.1 he]
        decide
    · decide
    · rfl
    · intro k hk
      have : k = 0 ∨ k = 1 ∨ k = 2 := by omega
      rcases this with rfl | rfl | rfl <;> rfl
  rw [run_create, run_create, h2, run_nil]

theorem afterRecreate_reachable (n1 n2 n7 n8 n9 n10 : Time) :
    Reachable (afterRecreate n1 n2 n7 n8 n9 n10) :=
  ⟨n1, n2, _, (run_append _ _ _ _ (scenario_afterDelete n1 n2 n7 n8 n7 n8)).trans
    (scenario_afterRecreate n1 n2 n7 n8 n7 n8 n9 n10)⟩

/-- C13, on the code: after the calls `CreateFile("t1.txt")`, `CreateFile("t2.txt")`,
`DeleteFile("t1.txt")` on a fresh aggregate, the entry `"t2.txt"` stores inode index 2 but the
Inode Table has 2 elements, so the index is not a position of the table. -/
theorem entry_index_out_of_table :
    ∃ fs e, Reachable fs ∧ e ∈ fs.Directory ∧ e.Name = str "t2.txt" ∧ e.Inode = 2 ∧
      fs.Inodes.length = 2 ∧ fs.Inodes[2]? = none :=
  ⟨afterDelete sampleNow sampleNow sampleNow sampleNow,
    { Name := str "t2.txt", Inode := 2, Permission := str "rw-r--r--" },
    afterDelete_reachable _ _ _ _, List.mem_cons_of_mem _ (List.mem_singleton_self _),
    rfl, rfl, rfl, rfl⟩

/-- C16, on the code: in the same reachable state the inode at position 1 of the Inode Table
is used while `FreeList[1]` is `true`. -/
theorem used_inode_on_free_slot :
    ∃ fs inode, Reachable fs ∧ fs.Inodes[1]? = some inode ∧ inode.Used = true ∧
      fs.FreeList[1]? = some true :=
  ⟨afterDelete sampleNow sampleNow sampleNow sampleNow,
    { Data := str "yo", Used := true, Permission := str "rw-r--r--",
      CreatedAt := sampleNow, UpdatedAt := sampleNow },
    afterDelete_reachable _ _ _ _, rfl, rfl, rfl⟩

/-- C20, on the code: in the same reachable state `DeleteFile("t2.txt")` panics, because the
stored inode index 2 is not below the length 2 of the Inode Table. -/
theorem DeleteFile_panics_on_reachable :
    ∃ fs, Reachable fs ∧ DeleteFile fs (str "t2.txt") = none ∧
      ∃ e ∈ fs.Directory, e.Name = str "t2.txt" ∧ ¬ e.Inode < (fs.Inodes.length : Int) :=
  ⟨afterDelete sampleNow sampleNow sampleNow sampleNow, afterDelete_reachable _ _ _ _,
    afterDelete_delete_t2 _ _ _ _,
    { Name := str "t2.txt", Inode := 2, Permission := str "rw-r--r--" },
    List.mem_cons_of_mem _ (List.mem_singleton_self _), rfl, by decide⟩

/-- C17, on the code: two more `CreateFile` calls after the deletion make `findFreeInode`
grow the Inode Table by two slots, and position 2 keeps the zero-valued inode, whose
permission string is empty; the entry `"t2.txt"` is bound to that position. -/
theorem zero_inode_in_table :
    ∃ fs inode, Reachable fs ∧ fs.Inodes[2]? = some inode ∧ inode.Permission.length = 0 ∧
      inode.Used = false ∧
      (∀ e ∈ fs.Directory, e.Permission.length = 9) :=
  ⟨afterRecreate sampleNow sampleNow sampleNow sampleNow sampleNow sampleNow, Inode.zero,
    afterRecreate_reachable _ _ _ _ _ _, rfl, rfl, rfl, by decide⟩

/-! ## The byte layout of the image -/

theorem littleEndian_four (n : Nat) : littleEndian 4 n = putU32 n := by
  simp only [littleEndian, putU32, Nat.div_div_eq_div_mul]

theorem littleEndian_length (k n : Nat) : (littleEndian k n).length = k := by
  induction k generalizing n with
  | zero => rfl
  | succ k ih => simp [littleEndian, ih]

theorem littleEndian_eight (v : Int) (h : IsInt64 v) :
    littleEndian 8 (twosComplement64 v) = putI64 v := by
  have hu : twosComplement64 v = (v % 18446744073709551616).toNat := by
    unfold twosComplement64
    obtain ⟨h0, h1⟩ := h
    split <;> omega
  rw [hu]
  simp only [littleEndian, putI64, putU32, Nat.div_div_eq_div_mul, List.cons_append,
    List.nil_append]

theorem uint32_toNat (x : Int) (h0 : 0 ≤ x) (h1 : x < 4294967296) : uint32 x = x.toNat := by
  unfold uint32
  omega

theorem encodeFreeList_eq_map (fl : List Bool) : encodeFreeList fl = fl.map boolByte := by
  induction fl with
  | nil => rfl
  | cons b fl ih => simp [encodeFreeList, putBool, boolByte, ih]

theorem encodeDirectoryEntries_eq (dir : List DirectoryEntry) (h : ∀ e ∈ dir, ValidEntry e) :
    encodeDirectoryEntries dir = (dir.map layoutEntry).flatten := by
  induction dir with
  | nil => rfl
  | cons e dir ih =>
    obtain ⟨h1, h2, h3, _⟩ := h e (List.mem_cons_self _ _)
    rw [encodeDirectoryEntries, ih (fun e' he' => h e' (List.mem_cons_of_mem _ he')),
      List.map_cons, List.flatten_cons, encodeDirectoryEntry, layoutEntry, littleEndian_four,
      littleEndian_four, uint32_natCast _ h1, uint32_toNat _ h2 h3]

theorem encodeInodeList_eq (inodes : List Inode)
    (h : ∀ i ∈ inodes, i.Data.length < 4294967296 ∧ i.Permission.length = 9 ∧
      IsInt64 i.CreatedAt.Unix ∧ IsInt64 i.UpdatedAt.Unix) :
    encodeInodeList inodes = (inodes.map layoutInode).flatten := by
  induction inodes with
  | nil => rfl
  | cons i inodes ih =>
    obtain ⟨h1, _, h3, h4⟩ := h i (List.mem_cons_self _ _)
    rw [encodeInodeList, ih (fun i' hi' => h i' (List.mem_cons_of_mem _ hi')),
      List.map_cons, List.flatten_cons, encodeInode, layoutInode, littleEndian_four,
      littleEndian_eight _ h3, littleEndian_eight _ h4, uint32_natCast _ h1]
    rfl

theorem layoutEntries_length (dir : List DirectoryEntry)
    (h : ∀ e ∈ dir, e.Permission.length = 9) :
    (dir.map layoutEntry).flatten.length = (dir.map fun e => 17 + e.Name.length).sum := by
  induction dir with
  | nil => rfl
  | cons e dir ih =>
    have h9 := h e (List.mem_cons_self _ _)
    simp only [List.map_cons, List.flatten_cons, List.length_append, List.sum_cons,
      ih (fun e' he' => h e' (List.mem_cons_of_mem _ he')), layoutEntry, littleEndian_length, h9]
    omega

theorem layoutInodes_length (inodes : List Inode)
    (h : ∀ i ∈ inodes, i.Permission.length = 9) :
    (inodes.map layoutInode).flatten.length = (inodes.map fun i => 30 + i.Data.length).sum := by
  induction inodes with
  | nil => rfl
  | cons i inodes ih =>
    have h9 := h i (List.mem_cons_self _ _)
    simp only [List.map_cons, List.flatten_cons, List.length_append, List.sum_cons,
      ih (fun i' hi' => h i' (List.mem_cons_of_mem _ hi')), layoutInode, littleEndian_length, h9,
      List.length_singleton]
    omega

/-- C12 (byte layout of the image): for an aggregate satisfying the data model, the bytes
`SaveFileSystem` writes are, in order and without padding, the sections of the format
description (`layout`), and their number is `8 + totalBlocks + 4 + Σ (17 + nameLen) + 4 +
Σ (30 + dataLen) + 4 + len(currentDir)`. -/
theorem SaveFileSystem_layout (fs : FileSystem) (h : DataModel fs) :
    SaveFileSystem fs = layout fs ∧ (SaveFileSystem fs).length = layoutLength fs := by
  obtain ⟨hfl, hfl2, b0, b1, hd, hde, hi, hie, hc⟩ := h
  have htb : uint32 fs.SuperBlock.TotalBlocks = fs.SuperBlock.TotalBlocks.toNat :=
    uint32_toNat _ (by omega) (by omega)
  have heq : SaveFileSystem fs = layout fs := by
    unfold SaveFileSystem layout encodeSuperBlock encodeDirectory encodeInodes
      encodeCurrDirecrory
    rw [encodeFreeList_eq_map, encodeDirectoryEntries_eq _ hde, encodeInodeList_eq _ hie,
      littleEndian_four, littleEndian_four, littleEndian_four, littleEndian_four,
      littleEndian_four, htb, uint32_toNat _ b0 b1, uint32_natCast _ hd, uint32_natCast _ hi,
      uint32_natCast _ hc]
    simp only [List.append_assoc]
  refine ⟨heq, ?_⟩
  rw [heq]
  unfold layout layoutLength
  simp only [List.length_append, littleEndian_length, List.length_map,
    layoutEntries_length _ (fun e he => (hde e he).2.2.2),
    layoutInodes_length _ (fun i hi' => (hie i hi').2.1)]
  omega

/-! ## The theorems on sequences at concrete inputs -/

theorem allocation_uniqueness_witness :
    (allocAll roomyFs
        [AllocCall.find, AllocCall.allocate (str "hi") (str "rw-r--r--") sampleNow sampleNow]).1 =
        [1, 2] ∧
      (allocAll roomyFs
        [AllocCall.find, AllocCall.allocate (str "hi") (str "rw-r--r--") sampleNow sampleNow]).1.Pairwise
        (fun a b => a < b) :=
  ⟨by decide,
    (allocation_uniqueness roomyFs
      [AllocCall.find, AllocCall.allocate (str "hi") (str "rw-r--r--") sampleNow sampleNow]
      (by decide)).2.1⟩

theorem SaveFileSystem_layout_witness :
    DataModel sampleFs ∧ SaveFileSystem sampleFs = layout sampleFs ∧
      (SaveFileSystem sampleFs).length = layoutLength sampleFs ∧ layoutLength sampleFs = 74 :=
  ⟨by decide, (SaveFileSystem_layout sampleFs (by decide)).1,
    (SaveFileSystem_layout sampleFs (by decide)).2, by decide⟩

theorem names_nonempty_unique_witness :
    Reachable (afterDelete sampleNow sampleNow sampleNow sampleNow) ∧
      (afterDelete sampleNow sampleNow sampleNow sampleNow).Directory.Pairwise
        (fun a b => a.Name ≠ b.Name) :=
  ⟨afterDelete_reachable _ _ _ _,
    (names_nonempty_unique _ (afterDelete_reachable sampleNow sampleNow sampleNow sampleNow)).2⟩

theorem root_first_unless_deleted_witness :
    (∃ log, stampedRun (CreateFileSystem sampleNow sampleNow) (freshLog sampleNow sampleNow) 1
          [Op.create (str "t1.txt") (str "hi") sampleNow sampleNow,
           Op.create (str "t2.txt") (str "yo") sampleNow sampleNow, Op.delete (str "t1.txt")] =
          some (afterDelete sampleNow sampleNow sampleNow sampleNow, log) ∧
        log.map Prod.fst = (afterDelete sampleNow sampleNow sampleNow sampleNow).Directory ∧
        (log.map Prod.snd).Pairwise (fun a b => a < b)) ∧
      (afterDelete sampleNow sampleNow sampleNow sampleNow).Directory.head? =
        some { Name := str "/", Inode := 0, Permission := str "rwxr-xr-x" } :=
  have h := root_first_unless_deleted sampleNow sampleNow
    [Op.create (str "t1.txt") (str "hi") sampleNow sampleNow,
     Op.create (str "t2.txt") (str "yo") sampleNow sampleNow, Op.delete (str "t1.txt")]
    (afterDelete sampleNow sampleNow sampleNow sampleNow)
    (scenario_afterDelete sampleNow sampleNow sampleNow sampleNow sampleNow sampleNow)
  ⟨h.1.elim fun log hl => ⟨log, hl.1, hl.2.1, hl.2.2.1⟩, (h.2 (by decide)).2⟩

theorem file_operations_frame_witness :
    (CreateFile sampleFs (str "a") (str "hi") sampleNow sampleNow).FreeList.length =
        sampleFs.FreeList.length ∧
      ∃ fs', DeleteFile fullFs (str "a") = some fs' ∧ fs'.SuperBlock = fullFs.SuperBlock ∧
        fs'.CurrentDir = fullFs.CurrentDir ∧ fs'.FreeList.length = fullFs.FreeList.length :=
  have hdel : DeleteFile fullFs (str "a") =
      some { fullFs with
        Directory := [{ Name := str "/", Inode := 0, Permission := str "rwxr-xr-x" }]
        Inodes := [{ Data := [0, 1, 255], Used := true, Permission := str "rwxr-xr-x",
                     CreatedAt := { sec := 1700000000, nsec := 0 },
                     UpdatedAt := { sec := 1700000001, nsec := 0 } }]
        FreeList := [false, true] } := by decide
  have h := file_operations_frame fullFs (str "a") (str "hi") sampleNow sampleNow
  ⟨(file_operations_frame sampleFs (str "a") (str "hi") sampleNow sampleNow).1.2.2.1,
    _, hdel, (h.2 _ hdel).1, (h.2 _ hdel).2.1, (h.2 _ hdel).2.2.1⟩

theorem directory_freelist_consistency_witness :
    Reachable (afterDelete sampleNow sampleNow sampleNow sampleNow) ∧
      (afterDelete sampleNow sampleNow sampleNow sampleNow).FreeList.count false =
        (afterDelete sampleNow sampleNow sampleNow sampleNow).Directory.length :=
  ⟨afterDelete_reachable _ _ _ _,
    (directory_freelist_consistency _
      (afterDelete_reachable sampleNow sampleNow sampleNow sampleNow)).2.2.2⟩

end Filesystem
